import Mathlib

/-!
Verification development for the text-fragments directive parser and
range-resolution engine (a line-by-line implementation of the WICG
Text Fragments draft).  The definitions below are a shallow embedding of
the source files; strings are modelled as lists of characters, fallible
operations return Except, and loops take explicit fuel.
-/

set_option maxRecDepth 10000

namespace TextFragments

/-- Shorthand turning a string literal into the list-of-characters
representation used throughout the embedding. -/
def cs (s : String) : List Char := s.data

/-- Errors that the modelled JavaScript code can raise: URIError from
percent-decoding, DOMExceptions from Range and CharacterData operations,
and TypeError from using null where an object is required. -/
inductive JsError where
  | uriError
  | typeError
  | indexSizeError
  | invalidNodeTypeError
  | wrongDocumentError
deriving DecidableEq, Repr

/-- Splitting a string on a separator character, as the JavaScript
String.prototype.split with a one-character separator: the empty string
splits to a list holding one empty string, and adjacent separators
produce empty fields. -/
def splitOnChar (sep : Char) (l : List Char) : List (List Char) :=
  l.foldr
    (fun c acc =>
      match acc with
      | [] => [[]]
      | a :: as => if c = sep then [] :: a :: as else (c :: a) :: as)
    [[]]

/-- Value of a hexadecimal digit character, if it is one. -/
def hexDigit? (c : Char) : Option Nat :=
  if '0' ≤ c ∧ c ≤ '9' then some (c.toNat - 48)
  else if 'A' ≤ c ∧ c ≤ 'F' then some (c.toNat - 55)
  else if 'a' ≤ c ∧ c ≤ 'f' then some (c.toNat - 87)
  else none

/-- Number of leading one bits of a byte, as used by the ECMAScript
Decode abstract operation to classify a UTF-8 lead byte. -/
def utf8LeadingOnes (b : Nat) : Nat :=
  if b < 0x80 then 0
  else if b < 0xC0 then 1
  else if b < 0xE0 then 2
  else if b < 0xF0 then 3
  else if b < 0xF8 then 4
  else 5

/-- Whether a byte is a UTF-8 continuation byte (10xxxxxx). -/
def isUtf8Cont (b : Nat) : Bool := 0x80 ≤ b ∧ b < 0xC0

/-- The ECMAScript decodeURIComponent(...) operation (the Decode abstract
operation with an empty reserved set), over code points: percent-escaped
bytes are decoded as strict UTF-8 (overlong encodings, surrogate code
points and out-of-range values are rejected), any other character passes
through unchanged, and None models a thrown URIError.  The JavaScript
original produces surrogate pairs for astral code points; here an astral
code point is a single character, which affects no use in this
development. -/
def jsDecode : List Char → Option (List Char)
  | [] => some []
  | '%' :: h1 :: h2 :: rest =>
    match hexDigit? h1, hexDigit? h2 with
    | some a, some b =>
      let B := 16 * a + b
      if B < 0x80 then
        match jsDecode rest with
        | some tail => some (Char.ofNat B :: tail)
        | none => none
      else
        match utf8LeadingOnes B, rest with
        | 2, '%' :: g1 :: g2 :: rest2 =>
          (match hexDigit? g1, hexDigit? g2 with
          | some a2, some b2 =>
            let B2 := 16 * a2 + b2
            if isUtf8Cont B2 then
              let cp := (B - 0xC0) * 64 + (B2 - 0x80)
              if 0x80 ≤ cp then
                match jsDecode rest2 with
                | some tail => some (Char.ofNat cp :: tail)
                | none => none
              else none
            else none
          | _, _ => none)
        | 3, '%' :: g1 :: g2 :: '%' :: g3 :: g4 :: rest2 =>
          (match hexDigit? g1, hexDigit? g2, hexDigit? g3, hexDigit? g4 with
          | some a2, some b2, some a3, some b3 =>
            let B2 := 16 * a2 + b2
            let B3 := 16 * a3 + b3
            if isUtf8Cont B2 ∧ isUtf8Cont B3 then
              let cp := (B - 0xE0) * 4096 + (B2 - 0x80) * 64 + (B3 - 0x80)
              if 0x800 ≤ cp ∧ ¬ (0xD800 ≤ cp ∧ cp ≤ 0xDFFF) then
                match jsDecode rest2 with
                | some tail => some (Char.ofNat cp :: tail)
                | none => none
              else none
            else none
          | _, _, _, _ => none)
        | 4, '%' :: g1 :: g2 :: '%' :: g3 :: g4 :: '%' :: g5 :: g6 :: rest2 =>
          (match hexDigit? g1, hexDigit? g2, hexDigit? g3, hexDigit? g4,
                 hexDigit? g5, hexDigit? g6 with
          | some a2, some b2, some a3, some b3, some a4, some b4 =>
            let B2 := 16 * a2 + b2
            let B3 := 16 * a3 + b3
            let B4 := 16 * a4 + b4
            if isUtf8Cont B2 ∧ isUtf8Cont B3 ∧ isUtf8Cont B4 then
              let cp := (B - 0xF0) * 262144 + (B2 - 0x80) * 4096 +
                        (B3 - 0x80) * 64 + (B4 - 0x80)
              if 0x10000 ≤ cp ∧ cp ≤ 0x10FFFF then
                match jsDecode rest2 with
                | some tail => some (Char.ofNat cp :: tail)
                | none => none
              else none
            else none
          | _, _, _, _, _, _ => none)
        | _, _ => none
    | _, _ => none
  | '%' :: _ => none
  | c :: rest =>
    match jsDecode rest with
    | some tail => some (c :: tail)
    | none => none

/-- The ParsedTextDirective struct: textStart is required, the other
three items may be null.  The source's field named with the reserved
word for a leading affix is called prefixV here. -/
structure ParsedTextDirective where
  textStart : List Char
  textEnd : Option (List Char)
  prefixV : Option (List Char)
  suffix : Option (List Char)
deriving DecidableEq, Repr

/-- Whether a directive string matches the TextDirective production; the
source's temporary implementation only checks the literal leading
text= marker. -/
def isTextFragmentDirective (input : List Char) : Bool :=
  (cs "text=").isPrefixOf input

/-- Steps 11 to 14 of parse-a-text-directive: require exactly one or
two remaining tokens, percent-decode them into textStart and textEnd,
and assemble the result with the already-processed prefix and suffix
values. -/
def parseSteps11to14 (pv sv : Option (List Char)) (tokens2 : List (List Char)) :
    Except JsError (Option ParsedTextDirective) :=
  -- step 11: exactly one or two tokens must remain
  if tokens2.length ≠ 1 ∧ tokens2.length ≠ 2 then Except.ok none
  else
    -- step 12: the first remaining token is textStart
    match jsDecode (tokens2.headD []) with
    | none => Except.error JsError.uriError
    | some ts =>
      -- step 13: with two tokens the last one is textEnd
      if tokens2.length = 2 then
        match jsDecode ((tokens2.getLast?).getD []) with
        | none => Except.error JsError.uriError
        | some te => Except.ok (some ⟨ts, some te, pv, sv⟩)
      else Except.ok (some ⟨ts, none, pv, sv⟩)

/-- Steps 9 to 14 of parse-a-text-directive: a last token starting with
a dash is stripped and percent-decoded into the suffix (the failing
decode raising URIError), then the remaining tokens are handled by
steps 11 to 14. -/
def parseSteps9to14 (pv : Option (List Char)) (tokens1 : List (List Char)) :
    Except JsError (Option ParsedTextDirective) :=
  match tokens1.getLast? with
  | some s =>
    if s.head? = some '-' then
      match jsDecode (s.drop 1) with
      | some q => parseSteps11to14 pv (some q) tokens1.dropLast
      | none => Except.error JsError.uriError
    else parseSteps11to14 pv none tokens1
  | none => parseSteps11to14 pv none tokens1

/-- The parse-a-text-directive steps from the source: strip the
five-character marker, split on commas, reject token counts outside
1..4 and empty tokens, peel a trailing-dash first token into the prefix
and a leading-dash last token into the suffix, require one or two
remaining tokens, and percent-decode everything.  A failing
percent-decoding raises URIError, exactly as decodeURIComponent does in
the source. -/
def parseTextDirective (textDirectiveInput : List Char) :
    Except JsError (Option ParsedTextDirective) :=
  -- step 2: substring of the input starting at index 5
  let textDirectiveString := textDirectiveInput.drop 5
  -- step 3: split on commas
  let tokens := splitOnChar ',' textDirectiveString
  -- step 4: token count must be 1..4
  if tokens.length < 1 ∨ tokens.length > 4 then Except.ok none
  -- step 5: no token may be empty
  else if tokens.any List.isEmpty then Except.ok none
  else
    -- steps 7 and 8: a first token ending in a dash is stripped and
    -- percent-decoded into the prefix value, then removed from the list
    let potentialPrefix := tokens.headD []
    if potentialPrefix.getLast? = some '-' then
      match jsDecode potentialPrefix.dropLast with
      | some p => parseSteps9to14 (some p) tokens.tail
      | none => Except.error JsError.uriError
    else parseSteps9to14 none tokens

/-- Decoding an optional field: null stays null, a present field is
percent-decoded. -/
def decodeOpt : Option (List Char) → Option (Option (List Char))
  | none => some none
  | some s => (jsDecode s).map some

/-- Modelled from the spec: the final stage of the directive grammar
description, with the undecoded prefix and suffix fields still pending;
the one or two remaining tokens are the percent-decoded textStart and
textEnd, any other remaining count fails. -/
def specParseFinal (sp ss : Option (List Char)) (toks2 : List (List Char)) :
    Option ParsedTextDirective :=
  match toks2 with
  | [a] =>
    match jsDecode a, decodeOpt sp, decodeOpt ss with
    | some ts, some p, some sf => some ⟨ts, none, p, sf⟩
    | _, _, _ => none
  | [a, b] =>
    match jsDecode a, jsDecode b, decodeOpt sp, decodeOpt ss with
    | some ts, some te, some p, some sf => some ⟨ts, some te, p, sf⟩
    | _, _, _, _ => none
  | _ => none

/-- Modelled from the spec: suffix removal in the directive grammar (a
last token starting with a dash is removed and recorded undecoded),
followed by the final stage. -/
def specParseTail (sp : Option (List Char)) (toks1 : List (List Char)) :
    Option ParsedTextDirective :=
  match toks1.getLast? with
  | some t =>
    if t.head? = some '-' then specParseFinal sp (some (t.drop 1)) toks1.dropLast
    else specParseFinal sp none toks1
  | none => specParseFinal sp none toks1

/-- Modelled from the spec: the directive-grammar description in prose
(strip the marker, split on commas, fail outside 1..4 tokens or on an
empty token, a trailing-dash first token is the prefix, a leading-dash
last token is the suffix, and the one or two remaining tokens are the
percent-decoded textStart and textEnd).  Used only to compare the
source's parser against the specified shape. -/
def specParseTextDirective (input : List Char) : Option ParsedTextDirective :=
  let toks := splitOnChar ',' (input.drop 5)
  if toks.length < 1 ∨ 4 < toks.length ∨ toks.any List.isEmpty then none
  else if (toks.headD []).getLast? = some '-' then
    specParseTail (some (toks.headD []).dropLast) toks.tail
  else specParseTail none toks

/-- The token list left after removing a leading-dash last token,
without any decoding; used to state the malformed-input claim. -/
def remTokensSuffix (t1 : List (List Char)) : List (List Char) :=
  match t1.getLast? with
  | some s => if s.head? = some '-' then t1.dropLast else t1
  | none => t1

/-- The token list left after removing a trailing-dash first token and a
leading-dash last token, without any decoding; used to state the
malformed-input claim. -/
def remTokens (toks : List (List Char)) : List (List Char) :=
  remTokensSuffix (if (toks.headD []).getLast? = some '-' then toks.tail else toks)

/-! Word boundaries and plain text search. -/

/-- ASCII lowercasing of one character, modelling the per-code-point
simple case mapping of String.prototype.toLowerCase for the character
ranges exercised here (the source uses it only for its temporary
case-insensitive comparison). -/
def toLowerChar (c : Char) : Char :=
  if 'A' ≤ c ∧ c ≤ 'Z' then Char.ofNat (c.toNat + 32) else c

/-- Lowercasing of a whole string. -/
def lowerStr (s : List Char) : List Char := s.map toLowerChar

/-- The JavaScript String.prototype.indexOf with a from-index: the
smallest index not below the (clamped) from-index at which the needle
occurs, or None for the JavaScript result -1.  An empty needle is found
at the clamped from-index itself. -/
def indexOfFrom (hay needle : List Char) (start : Nat) : Option Nat :=
  ((List.range (hay.length + 1)).filter
    (fun i => min start hay.length ≤ i && needle.isPrefixOf (hay.drop i))).head?

/-- Word characters of the JavaScript regular-expression class w
(letters, digits, underscore), used by its word-boundary assertion. -/
def jsIsWordChar (c : Char) : Bool :=
  ('a' ≤ c && c ≤ 'z') || ('A' ≤ c && c ≤ 'Z') || ('0' ≤ c && c ≤ '9') || c == '_'

/-- Whitespace characters of the JavaScript regular-expression class s. -/
def jsIsSpaceChar (c : Char) : Bool :=
  [0x0009, 0x000A, 0x000B, 0x000C, 0x000D, 0x0020, 0x00A0, 0x1680,
   0x2000, 0x2001, 0x2002, 0x2003, 0x2004, 0x2005, 0x2006, 0x2007,
   0x2008, 0x2009, 0x200A, 0x2028, 0x2029, 0x202F, 0x205F, 0x3000,
   0xFEFF].contains c.toNat

/-- Whether the character at a position is a word character; out of
range counts as not a word character, as for the regular-expression
word-boundary assertion. -/
def wordCharAt (t : List Char) (i : Nat) : Bool :=
  match t.get? i with
  | some c => jsIsWordChar c
  | none => false

/-- Whether the boundary-collecting regular expression of the source
(start of string, word boundary, whitespace character, or end of
string, globally) matches at a position: matchAll attempts the pattern
once at every position from 0 to the length, and records the position
whenever any alternative matches there. -/
def matchesBoundaryAt (t : List Char) (p : Nat) : Bool :=
  p == 0 || p == t.length || (wordCharAt t (p - 1) != wordCharAt t p) ||
    (decide (p < t.length) && jsIsSpaceChar ((t.get? p).getD ' '))

/-- All positions at which the source's boundary regular expression
matches, in increasing order. -/
def allBoundaries (t : List Char) : List Nat :=
  (List.range (t.length + 1)).filter (matchesBoundaryAt t)

/-- Direction argument of nearestWordBoundary. -/
inductive BoundaryDirection where
  | before
  | after
deriving DecidableEq, Repr

/-- The source's nearestWordBoundary: collect all boundary positions,
then find the last one at or before the position, or the first one
strictly after it.  The locale is accepted but unused, exactly as in
the source's temporary implementation; None models the undefined that
the source's unchecked find can produce. -/
def nearestWordBoundary (text : List Char) (position : Int)
    (direction : BoundaryDirection) (locale : List Char) : Option Int :=
  let allB : List Int := (allBoundaries text).map Nat.cast
  match direction with
  | BoundaryDirection.before => allB.reverse.find? (fun b => decide (b ≤ position))
  | BoundaryDirection.after => allB.find? (fun b => decide (position < b))

/-- The source's isWordBounded: the last boundary at or before the
start must be the start itself, and the first boundary after the last
character of the substring must sit immediately after it.  A missing
boundary (undefined in the source, flowing into a NaN comparison)
yields false. -/
def isWordBounded (text : List Char) (startPosition count : Int)
    (startLocale endLocale : List Char) : Bool :=
  match nearestWordBoundary text startPosition BoundaryDirection.before startLocale with
  | none => false
  | some leftBound =>
    if leftBound ≠ startPosition then false
    else
      let endPosition := startPosition + count - 1
      match nearestWordBoundary text endPosition BoundaryDirection.after endLocale with
      | none => false
      | some rightBound =>
        if rightBound - 1 ≠ endPosition then false else true

/-! The content-tree model.  A document is a tree of nodes; an element
carries its host-provided computed-style facts (display, visibility),
namespace, local name and attributes, and possibly an open shadow root.
Nodes are referenced by their path from the document node, so that
reference equality of the source becomes path equality. -/

/-- One step down the content tree: into an ordinary child, or into an
element's shadow root. -/
inductive Step where
  | child (i : Nat)
  | shadow
deriving DecidableEq, Repr

/-- A node reference: the path of steps from the document node. -/
abbrev Path := List Step

/-- Host-provided facts about an element: namespace, local name,
computed display and visibility values, and its attributes as
(namespace, local name, value) triples. -/
structure ElemInfo where
  namespaceURI : Option (List Char)
  localName : List Char
  display : List Char
  visibility : List Char
  attrs : List (Option (List Char) × List Char × List Char)
deriving DecidableEq, Repr

/-- A content-tree node: the document, a doctype, an element (with an
optional open shadow root holding its own child list), a shadow root,
a text node, or a comment. -/
inductive DNode where
  | document (children : List DNode)
  | doctype
  | element (info : ElemInfo) (shadow : Option (List DNode)) (children : List DNode)
  | shadowRoot (children : List DNode)
  | text (data : List Char)
  | comment (data : List Char)
deriving Repr

/-- The ordinary (light) children of a node. -/
def childrenOf : DNode → List DNode
  | DNode.document c => c
  | DNode.element _ _ c => c
  | DNode.shadowRoot c => c
  | _ => []

/-- Resolve a path to the node it references, if any. -/
def resolve (n : DNode) : Path → Option DNode
  | [] => some n
  | Step.child i :: rest =>
    match (childrenOf n).get? i with
    | some c => resolve c rest
    | none => none
  | Step.shadow :: rest =>
    match n with
    | DNode.element _ (some sc) _ => resolve (DNode.shadowRoot sc) rest
    | _ => none

/-- The character data of a text or comment node (the data attribute of
CharacterData); other nodes have none. -/
def dataOf : DNode → List Char
  | DNode.text d => d
  | DNode.comment d => d
  | _ => []

/-- The length of a node: zero for a doctype, the data length for
character data, and the child count otherwise. -/
def nodeLength (n : DNode) : Nat :=
  match n with
  | DNode.doctype => 0
  | DNode.text d => d.length
  | DNode.comment d => d.length
  | _ => (childrenOf n).length

/-- The parent node of a referenced node: null for the document and for
a shadow root (whose host is not its parent). -/
def parentNodePath (p : Path) : Option Path :=
  match p.getLast? with
  | some (Step.child _) => some p.dropLast
  | some Step.shadow => none
  | none => none

/-- Whether a step descends into an ordinary child. -/
def isChildStep : Step → Bool
  | Step.child _ => true
  | Step.shadow => false

/-- The root of the tree a node lives in: the nearest enclosing shadow
root, else the document.  This is what getRootNode() returns. -/
def rootPath (p : Path) : Path :=
  (p.reverse.dropWhile isChildStep).reverse

/-- The next-sibling-or-up walk of a TreeWalker confined to the tree
rooted at the given root: try the next sibling, else climb.  The climb
shortens the path each step, so the recursion is bounded by the path
length. -/
def climbNext (doc : DNode) (root : Path) (p : Path) : Option Path :=
  go (p.length + 1) p
where
  /-- The climb, bounded by the path length. -/
  go : Nat → Path → Option Path
  | 0, _ => none
  | bound + 1, q =>
    if q = root then none
    else
      match q.getLast? with
      | some (Step.child i) =>
        let par := q.dropLast
        match resolve doc par with
        | some parentN =>
          if i + 1 < (childrenOf parentN).length then some (par ++ [Step.child (i + 1)])
          else go bound par
        | none => none
      | some Step.shadow => none
      | none => none

/-- The source's nextNode helper: a TreeWalker over the node's root
(getRootNode), advanced one node in tree order — first child if any,
else next sibling or up.  It never crosses a shadow boundary and
returns null at the end of the node's own tree. -/
def nextNodePlain (doc : DNode) (p : Path) : Option Path :=
  match resolve doc p with
  | none => none
  | some n =>
    if 0 < (childrenOf n).length then some (p ++ [Step.child 0])
    else climbNext doc (rootPath p) p

/-- Whether a node is a shadow host: an element whose shadow root is
non-null. -/
def isShadowHost (doc : DNode) (p : Path) : Bool :=
  match resolve doc p with
  | some (DNode.element _ (some _) _) => true
  | _ => false

/-- The source's next node in shadow-including tree order: on a shadow
host it recurses on the shadow root, and since a shadow root is never
an element the recursion immediately reduces to the plain next node of
the shadow root; written here with that single unfolding applied.  Note
that the plain walk is confined to one tree, so this traversal enters a
shadow tree but never leaves it — a faithful quirk of the source. -/
def nextNodeInShadowIncludingTreeOrder (doc : DNode) (p : Path) : Option Path :=
  if isShadowHost doc p then nextNodePlain doc (p ++ [Step.shadow])
  else nextNodePlain doc p

/-- The source's isDescendant: walk the parent chain of the first node
comparing against the second; the second argument is kept optional
because the source compares with a possibly-null node.  The chain
shortens the path each step, so the recursion is bounded by the path
length. -/
def isDescendant (a : Path) (b : Option Path) : Bool :=
  go (a.length + 1) a
where
  /-- The parent-chain walk, bounded by the path length. -/
  go : Nat → Path → Bool
  | 0, _ => false
  | bound + 1, q =>
    (parentNodePath q == b) ||
      (match parentNodePath q with
       | some c => go bound c
       | none => false)

/-- The source's isShadowIncludingDescendant: a plain descendant, or a
node whose root is a shadow root and whose host is a shadow-including
inclusive descendant of the other node.  Passing to the host shortens
the path, so the recursion is bounded by the path length. -/
def isShadowIncludingDescendant (a : Path) (b : Option Path) : Bool :=
  go (a.length + 1) a
where
  /-- The host-chain walk, bounded by the path length. -/
  go : Nat → Path → Bool
  | 0, _ => false
  | bound + 1, q =>
    isDescendant q b ||
      (match (rootPath q).getLast? with
       | some Step.shadow =>
         let host := (rootPath q).dropLast
         (some host == b) || go bound host
       | _ => false)

/-- The outcome of a fueled computation: a value, a raised error, or
fuel exhaustion. -/
inductive Res (α : Type) where
  | ok (a : α)
  | err (e : JsError)
  | fuelOut
deriving DecidableEq, Repr

/-- Sequencing of fueled computations. -/
def Res.bind {α β : Type} : Res α → (α → Res β) → Res β
  | Res.ok a, f => f a
  | Res.err e, _ => Res.err e
  | Res.fuelOut, _ => Res.fuelOut

instance : Monad Res where
  pure := Res.ok
  bind := Res.bind

/-- Lifting an Except result into a fueled computation. -/
def Res.ofExcept {α : Type} : Except JsError α → Res α
  | Except.ok a => Res.ok a
  | Except.error e => Res.err e

/-! Boundary points, their order, and ranges. -/

/-- Numeric encoding of a step for the boundary-point order: the shadow
tree of a host sits after the host's offset zero and before its first
ordinary child. -/
def stepEnc : Step → Nat
  | Step.shadow => 1
  | Step.child i => 3 * i + 2

/-- The comparison key of a boundary point (node path, offset): the
encoded path followed by the scaled offset.  Lexicographic comparison
of keys realises the tree order on boundary points of one tree, and a
global well-order used as the termination measure. -/
def bpKey (p : Path) (o : Nat) : List Nat := p.map stepEnc ++ [3 * o]

/-- Strict lexicographic order on key lists, a proper prefix counting as
smaller. -/
def lexLt : List Nat → List Nat → Bool
  | [], [] => false
  | [], _ :: _ => true
  | _ :: _, [] => false
  | a :: as, b :: bs => if a < b then true else if b < a then false else lexLt as bs

/-- Whether one boundary point is strictly before another (same tree). -/
def bpBefore (p1 : Path) (o1 : Nat) (p2 : Path) (o2 : Nat) : Bool :=
  lexLt (bpKey p1 o1) (bpKey p2 o2)

/-- A live range: start and end boundary points. -/
structure JsRange where
  startC : Path
  startO : Nat
  endC : Path
  endO : Nat
deriving DecidableEq, Repr

/-- Whether a range is collapsed. -/
def rangeCollapsed (r : JsRange) : Bool :=
  r.startC == r.endC && r.startO == r.endO

/-- The DOM set-the-start steps of Range.setStart: reject a doctype or
an out-of-range offset; if the node lives in another tree than the
range or the new boundary point lies after the range's end, the end is
moved to the new boundary point as well. -/
def rangeSetStart (doc : DNode) (r : JsRange) (node : Path) (offset : Nat) :
    Except JsError JsRange :=
  match resolve doc node with
  | none => Except.error JsError.typeError
  | some n =>
    match n with
    | DNode.doctype => Except.error JsError.invalidNodeTypeError
    | _ =>
      if offset > nodeLength n then Except.error JsError.indexSizeError
      else if rootPath node ≠ rootPath r.startC ∨
          bpBefore r.endC r.endO node offset then
        Except.ok ⟨node, offset, node, offset⟩
      else Except.ok ⟨node, offset, r.endC, r.endO⟩

/-- The DOM set-the-end steps of Range.setEnd, mirror image of
set-the-start. -/
def rangeSetEnd (doc : DNode) (r : JsRange) (node : Path) (offset : Nat) :
    Except JsError JsRange :=
  match resolve doc node with
  | none => Except.error JsError.typeError
  | some n =>
    match n with
    | DNode.doctype => Except.error JsError.invalidNodeTypeError
    | _ =>
      if offset > nodeLength n then Except.error JsError.indexSizeError
      else if rootPath node ≠ rootPath r.startC ∨
          bpBefore node offset r.startC r.startO then
        Except.ok ⟨node, offset, node, offset⟩
      else Except.ok ⟨r.startC, r.startO, node, offset⟩

/-- Setting the start from a possibly-null node, as the source's spread
of a nullable value into setStart: null raises TypeError. -/
def rangeSetStartOpt (doc : DNode) (r : JsRange) (node? : Option Path)
    (offset : Nat) : Except JsError JsRange :=
  match node? with
  | none => Except.error JsError.typeError
  | some node => rangeSetStart doc r node offset

/-- Range.comparePoint: wrong tree and doctype and out-of-range
offsets raise; otherwise minus one before the start, one after the end,
zero inside. -/
def rangeComparePoint (doc : DNode) (r : JsRange) (node : Path) (offset : Nat) :
    Except JsError Int :=
  match resolve doc node with
  | none => Except.error JsError.typeError
  | some n =>
    if rootPath node ≠ rootPath r.startC then Except.error JsError.wrongDocumentError
    else
      match n with
      | DNode.doctype => Except.error JsError.invalidNodeTypeError
      | _ =>
        if offset > nodeLength n then Except.error JsError.indexSizeError
        else if bpBefore node offset r.startC r.startO then Except.ok (-1)
        else if bpBefore r.endC r.endO node offset then Except.ok 1
        else Except.ok 0

/-- document.createRange(): a collapsed range at (document, 0). -/
def createRange : JsRange := ⟨[], 0, [], 0⟩

/-- The start boundary point of a range (the source's getStart). -/
def getStart (r : JsRange) : Path × Nat := (r.startC, r.startO)

/-- The end boundary point of a range (the source's getEnd). -/
def getEnd (r : JsRange) : Path × Nat := (r.endC, r.endO)

/-- Whether two boundary points are the same node (reference equality)
and offset (the source's samePoint). -/
def samePoint (bp1 bp2 : Path × Nat) : Bool :=
  bp1.1 == bp2.1 && bp1.2 == bp2.2

/-- The substring-data steps of CharacterData: an offset beyond the
node's length raises IndexSizeError, and the count is clamped to the
end of the data. -/
def substringData (doc : DNode) (node : Path) (offset count : Nat) :
    Except JsError (List Char) :=
  match resolve doc node with
  | none => Except.error JsError.typeError
  | some n =>
    let length := nodeLength n
    if offset > length then Except.error JsError.indexSizeError
    else if offset + count > length then Except.ok ((dataOf n).drop offset)
    else Except.ok (((dataOf n).drop offset).take count)

/-! Tree classifiers. -/

/-- The HTML namespace. -/
def htmlNamespace : List Char := cs "http://www.w3.org/1999/xhtml"

/-- The XML namespace. -/
def xmlNamespace : List Char := cs "http://www.w3.org/XML/1998/namespace"

/-- The void element local names. -/
def voidElements : List (List Char) :=
  [cs "area", cs "base", cs "br", cs "col", cs "embed", cs "hr", cs "img",
   cs "input", cs "link", cs "meta", cs "param", cs "source", cs "track", cs "wbr"]

/-- Whether an element has an attribute with the given local name, in
any namespace, as Element.hasAttribute on the names used here. -/
def hasAttributeInfo (info : ElemInfo) (name : List Char) : Bool :=
  info.attrs.any (fun a => a.2.1 == name)

/-- Element.getAttributeNS: the value of the attribute with the given
namespace and local name, if any. -/
def getAttributeNSInfo (info : ElemInfo) (ns : Option (List Char))
    (name : List Char) : Option (List Char) :=
  (info.attrs.find? (fun a => a.1 == ns && a.2.1 == name)).map (fun a => a.2.2)

/-- Whether an element serializes as void: an HTML-namespace element
whose type is a void element or basefont, bgsound, frame or keygen. -/
def serializesAsVoid (info : ElemInfo) : Bool :=
  info.namespaceURI == some htmlNamespace &&
    (voidElements.contains info.localName ||
      [cs "basefont", cs "bgsound", cs "frame", cs "keygen"].contains info.localName)

/-- Whether a node is search invisible: an HTML element whose computed
display is none, or which serializes as void, or is one of the listed
embedded or scripting or styling types, or a select without multiple. -/
def isSearchInvisible (n : DNode) : Bool :=
  match n with
  | DNode.element info _ _ =>
    if info.namespaceURI == some htmlNamespace then
      info.display == cs "none" ||
      serializesAsVoid info ||
      [cs "iframe", cs "image", cs "meter", cs "object", cs "progress",
       cs "style", cs "script", cs "video", cs "audio"].contains info.localName ||
      (info.localName == cs "select" && !(hasAttributeInfo info (cs "multiple")))
    else false
  | _ => false

/-- Whether a node is or has an ancestor (by plain parent links, as the
source walks parentNode) that is search invisible.  The recursion is
bounded by the path length. -/
def partOfNonSearchableSubtree (doc : DNode) (node : Path) : Bool :=
  go (node.length + 1) node
where
  /-- The parent-chain walk, bounded by the path length. -/
  go : Nat → Path → Bool
  | 0, _ => false
  | bound + 1, q =>
    (match resolve doc q with
     | some n => isSearchInvisible n
     | none => false) ||
    (match parentNodePath q with
     | some par => go bound par
     | none => false)

/-- The parent element of a node: its parent node when that is an
element, as Node.parentElement. -/
def parentElementInfo (doc : DNode) (node : Path) : Option ElemInfo :=
  match parentNodePath node with
  | some par =>
    match resolve doc par with
    | some (DNode.element info _ _) => some info
    | _ => none
  | none => none

/-- Whether an element is being rendered; the source's temporary
implementation checks the hidden attribute. -/
def isBeingRendered (info : ElemInfo) : Bool :=
  !(hasAttributeInfo info (cs "hidden"))

/-- Whether a node is a visible text node: a text node whose parent
element has computed visibility visible and is being rendered (the
source consults the parent element for both facts). -/
def isVisibleTextNode (doc : DNode) (node : Path) : Bool :=
  match resolve doc node with
  | some (DNode.text _) =>
    match parentElementInfo doc node with
    | some info => info.visibility == cs "visible" && isBeingRendered info
    | none => false
  | _ => false

/-- Whether a node has block-level display: an element whose computed
display is block, table, flow-root, grid, flex or list-item. -/
def hasBlockLevelDisplay (n : DNode) : Bool :=
  match n with
  | DNode.element info _ _ =>
    [cs "block", cs "table", cs "flow-root", cs "grid", cs "flex",
     cs "list-item"].contains info.display
  | _ => false

/-- The ascending part of nearest-block-ancestor: the closest inclusive
ancestor that is not a text node and has block-level display.  The
recursion is bounded by the path length. -/
def nearestBlockAncestorLoop (doc : DNode) (p : Path) : Option Path :=
  go (p.length + 1) p
where
  /-- The parent-chain walk, bounded by the path length. -/
  go : Nat → Path → Option Path
  | 0, _ => none
  | bound + 1, q =>
    (match resolve doc q with
     | some n =>
       if (match n with | DNode.text _ => false | _ => true) && hasBlockLevelDisplay n
       then some q
       else none
     | none => none) <|>
    (match parentNodePath q with
     | some par => go bound par
     | none => none)

/-- The document element: the document's first element child, if any. -/
def documentElementPath (doc : DNode) : Option Path :=
  match doc with
  | DNode.document children =>
    (children.findIdx?
      (fun c => match c with | DNode.element _ _ _ => true | _ => false)).map
      (fun i => [Step.child i])
  | _ => none

/-- The nearest block ancestor of a node: the walk up the parent chain,
falling back to the owner document's document element. -/
def nearestBlockAncestorOf (doc : DNode) (node : Path) : Option Path :=
  match nearestBlockAncestorLoop doc node with
  | some p => some p
  | none => documentElementPath doc

/-! Language lookup, needed only because the source passes the result
into the word-boundary oracle (which ignores its locale). -/

/-- Whether an element is selected by the source's query for meta
elements carrying the content-language pragma. -/
def isContentLanguageMeta (info : ElemInfo) : Bool :=
  info.namespaceURI == some htmlNamespace && info.localName == cs "meta" &&
    info.attrs.any (fun a => a.2.1 == cs "http-equiv" &&
      lowerStr a.2.2 == cs "content-language")

mutual
/-- All content-language meta elements of a subtree, in tree order, as
seen by querySelectorAll on the document. -/
def collectMetas : DNode → List ElemInfo
  | DNode.document children => collectMetasList children
  | DNode.doctype => []
  | DNode.element info _ children =>
    (if isContentLanguageMeta info then [info] else []) ++ collectMetasList children
  | DNode.shadowRoot children => collectMetasList children
  | DNode.text _ => []
  | DNode.comment _ => []

/-- Metas of a list of subtrees. -/
def collectMetasList : List DNode → List ElemInfo
  | [] => []
  | c :: rest => collectMetas c ++ collectMetasList rest
end

/-- The source's getPragmaSetDefaultLanguage: it visits each
content-language meta element, but its inverted content-attribute check
makes it skip every meta that has a content attribute and dereference
null for every meta that lacks one — so it either raises TypeError or
finds no pragma-set default language at all. -/
def getPragmaSetDefaultLanguage (doc : DNode) : Except JsError (Option (List Char)) :=
  go (collectMetas doc)
where
  /-- The forEach over the collected meta elements. -/
  go : List ElemInfo → Except JsError (Option (List Char))
  | [] => Except.ok none
  | info :: rest =>
    if hasAttributeInfo info (cs "content") then go rest
    else Except.error JsError.typeError

/-- The ascending part of language determination: the nearest inclusive
ancestor element with a lang attribute in the XML namespace, else in no
namespace.  The recursion is bounded by the path length. -/
def languageOfLoop (doc : DNode) (p : Path) : Option (List Char) :=
  go (p.length + 1) p
where
  /-- The parent-chain walk, bounded by the path length. -/
  go : Nat → Path → Option (List Char)
  | 0, _ => none
  | bound + 1, q =>
    (match resolve doc q with
     | some (DNode.element info _ _) =>
       (match getAttributeNSInfo info (some xmlNamespace) (cs "lang") with
        | some v => some v
        | none => getAttributeNSInfo info none (cs "lang"))
     | _ => none) <|>
    (match parentNodePath q with
     | some par => go bound par
     | none => none)

/-- The language of a node: the nearest lang attribute, else the
pragma-set default language, else unknown (the empty string). -/
def languageOf (doc : DNode) (node : Path) : Except JsError (List Char) :=
  match languageOfLoop doc node with
  | some v => Except.ok v
  | none =>
    match getPragmaSetDefaultLanguage doc with
    | Except.error e => Except.error e
    | Except.ok (some v) => Except.ok v
    | Except.ok none => Except.ok []

/-! The search machinery. -/

/-- The length of the node a path references, zero for a dangling
reference (which the callers never produce). -/
def nodeLengthAt (doc : DNode) (p : Path) : Nat :=
  match resolve doc p with
  | some n => nodeLength n
  | none => 0

/-- The character data of the node a path references. -/
def dataOfAt (doc : DNode) (p : Path) : List Char :=
  match resolve doc p with
  | some n => dataOf n
  | none => []

/-- Whether the node a path references has block-level display. -/
def hasBlockLevelDisplayAt (doc : DNode) (p : Path) : Bool :=
  match resolve doc p with
  | some n => hasBlockLevelDisplay n
  | none => false

/-- Whether the node a path references is search invisible. -/
def isSearchInvisibleAt (doc : DNode) (p : Path) : Bool :=
  match resolve doc p with
  | some n => isSearchInvisible n
  | none => false

/-- Whether the node a path references is a doctype. -/
def isDoctypeAt (doc : DNode) (p : Path) : Bool :=
  match resolve doc p with
  | some DNode.doctype => true
  | _ => false

/-- The source's White_Space code point list, verbatim. -/
def hasWhiteSpaceProperty (codePoint : Nat) : Bool :=
  [0x0009, 0x000A, 0x000B, 0x000C, 0x000D,
   0x0085, 0x2028, 0x2029, 0x0020, 0x3000,
   0x1680, 0x2000, 0x2001, 0x2002, 0x2003,
   0x2004, 0x2005, 0x2006, 0x2008, 0x2009,
   0x200A, 0x205F, 0x00A0, 0x2007, 0x202F].contains codePoint

/-- The skipping loop of the source's helper that finds the next node
in shadow-including tree order that is not a shadow-including
descendant of the given node. -/
def nnsidLoop (doc : DNode) (node : Path) : Nat → Option Path → Res (Option Path)
  | 0, _ => Res.fuelOut
  | fuel + 1, cur? =>
    match cur? with
    | some c =>
      if isShadowIncludingDescendant c (some node) then
        nnsidLoop doc node fuel (nextNodeInShadowIncludingTreeOrder doc c)
      else Res.ok (some c)
    | none => Res.ok none

/-- The source's nextNodeInShadowIncludingTreeOrderThatIsNotAShadow-
IncludingDescendantOf helper. -/
def nextNodeNotInShadowIncludingDescendantOf (doc : DNode) (fuel : Nat)
    (node : Path) : Res (Option Path) :=
  nnsidLoop doc node fuel (nextNodeInShadowIncludingTreeOrder doc node)

/-- The outcome of one iteration of a source while-loop body: the
procedure returned, or the loop continues with an updated range. -/
inductive StepOut where
  | ret (r : JsRange)
  | cont (r : JsRange)
deriving DecidableEq, Repr

/-- One iteration of advance-a-range's-start-to-the-next-non-whitespace-
position: skip a non-searchable subtree, hop off a non-text position,
or consume one whitespace unit — six characters for the literal
sequence ampersand-n-b-s-p-semicolon, five for its unterminated form,
one for a code point with the White_Space property — returning at the
first code point without it; after consuming, a start offset reaching
the node's length hops to the next node. -/
def advanceStep (doc : DNode) (fuel : Nat) (range : JsRange) : Res StepOut :=
  -- steps 1 and 2: the range's start node and offset
  let node := range.startC
  let offset := range.startO
  -- step 3: a node in a non-searchable subtree is skipped entirely
  if partOfNonSearchableSubtree doc node then
    match nextNodeNotInShadowIncludingDescendantOf doc fuel node with
    | Res.ok next? =>
      (match rangeSetStartOpt doc range next? 0 with
       | Except.ok r' => Res.ok (StepOut.cont r')
       | Except.error e => Res.err e)
    | Res.err e => Res.err e
    | Res.fuelOut => Res.fuelOut
  -- step 4: a non-visible-text position hops to the next node
  else if ¬ isVisibleTextNode doc node then
    match rangeSetStartOpt doc range (nextNodeInShadowIncludingTreeOrder doc node) 0 with
    | Except.ok r' => Res.ok (StepOut.cont r')
    | Except.error e => Res.err e
  else
    -- steps 5 to 7: how much whitespace sits at the start offset
    match substringData doc node offset 6 with
    | Except.error e => Res.err e
    | Except.ok s6 =>
      if s6 = cs "&nbsp;" then
        -- step 5: the six-character literal counts as one whitespace unit
        advanceConsume doc range node (offset + 6)
      else
        match substringData doc node offset 5 with
        | Except.error e => Res.err e
        | Except.ok s5 =>
          if s5 = cs "&nbsp" then
            -- step 6: the unterminated five-character literal likewise
            advanceConsume doc range node (offset + 5)
          else
            -- step 7: the code point at the offset
            match (dataOfAt doc node).get? offset with
            | none => Res.ok (StepOut.ret range)
            | some ch =>
              if hasWhiteSpaceProperty ch.toNat then
                advanceConsume doc range node (offset + 1)
              else Res.ok (StepOut.ret range)
where
  /-- Setting the advanced start offset, followed by step 8: when the
  offset reaches the node's length, the start hops to the next node. -/
  advanceConsume (doc : DNode) (range : JsRange) (node : Path) (newOffset : Nat) :
      Res StepOut :=
    match rangeSetStart doc range node newOffset with
    | Except.error e => Res.err e
    | Except.ok r' =>
      if r'.startO = nodeLengthAt doc node then
        match rangeSetStartOpt doc r' (nextNodeInShadowIncludingTreeOrder doc node) 0 with
        | Except.ok r'' => Res.ok (StepOut.cont r'')
        | Except.error e => Res.err e
      else Res.ok (StepOut.cont r')

/-- The source's advance-range-start-to-next-non-whitespace-position
while loop. -/
def advanceRangeStartToNextNonWhitespacePosition (doc : DNode) :
    Nat → JsRange → Res JsRange
  | 0, _ => Res.fuelOut
  | fuel + 1, range =>
    if rangeCollapsed range then Res.ok range
    else
      match advanceStep doc fuel range with
      | Res.ok (StepOut.ret r) => Res.ok r
      | Res.ok (StepOut.cont r) =>
        advanceRangeStartToNextNonWhitespacePosition doc fuel r
      | Res.err e => Res.err e
      | Res.fuelOut => Res.fuelOut

/-- The get-boundary-point-at-index steps: walk the node list keeping a
running character count; with isEnd the end of a node counts as inside
that node rather than at the start of the next. -/
def getBoundaryPointAtIndex (doc : DNode) (index : Nat) (nodes : List Path)
    (isEnd : Bool) : Option (Path × Nat) :=
  go nodes 0
where
  /-- The for-each over the node list with its running count. -/
  go : List Path → Nat → Option (Path × Nat)
  | [], _ => none
  | curNode :: rest, counted =>
    let nodeEnd := counted + nodeLengthAt doc curNode + (if isEnd then 1 else 0)
    if nodeEnd > index then some (curNode, index - counted)
    else go rest (counted + nodeLengthAt doc curNode)

/-- The match-retry loop of find-a-range-from-a-node-list: find the
query case-insensitively from the search start, reject matches that are
not word bounded by retrying one position later in the same buffer, and
surface the first word-bounded match with its boundary points.  A match
whose boundary points cannot be computed dereferences null in the
source, raising TypeError. -/
def findMatchLoop (doc : DNode) (queryString searchBuffer : List Char)
    (nodes : List Path) : Nat → Nat → Res (Option (Nat × (Path × Nat) × (Path × Nat)))
  | 0, _ => Res.fuelOut
  | fuel + 1, searchStart =>
    match indexOfFrom (lowerStr searchBuffer) (lowerStr queryString) searchStart with
    | none => Res.ok none
    | some matchIndex =>
      let endIx := matchIndex + queryString.length
      match getBoundaryPointAtIndex doc matchIndex nodes false with
      | none => Res.err JsError.typeError
      | some start =>
        match getBoundaryPointAtIndex doc endIx nodes true with
        | none => Res.err JsError.typeError
        | some endBp =>
          match languageOf doc start.1 with
          | Except.error e => Res.err e
          | Except.ok startLocale =>
            match languageOf doc endBp.1 with
            | Except.error e => Res.err e
            | Except.ok endLocale =>
              if ¬ isWordBounded searchBuffer matchIndex queryString.length
                  startLocale endLocale then
                findMatchLoop doc queryString searchBuffer nodes fuel (matchIndex + 1)
              else Res.ok (some (matchIndex, start, endBp))

/-- The find-a-range-from-a-node-list steps: concatenate the node data
into the search buffer, start at the search range's start offset when
its start node heads the list, run the match-retry loop, reject a match
whose end runs past the search range's end inset on the last node, and
build the result range. -/
def findARangeFromANodeList (doc : DNode) (fuel : Nat) (queryString : List Char)
    (searchRange : JsRange) (nodes : List Path) : Res (Option JsRange) :=
  let searchBuffer := (nodes.map (fun p => dataOfAt doc p)).flatten
  let searchStart := if nodes.head? = some searchRange.startC then searchRange.startO else 0
  match findMatchLoop doc queryString searchBuffer nodes fuel searchStart with
  | Res.err e => Res.err e
  | Res.fuelOut => Res.fuelOut
  | Res.ok none => Res.ok none
  | Res.ok (some (matchIndex, start, endBp)) =>
    let endInset : Int :=
      if nodes.getLast? = some searchRange.endC then
        (nodeLengthAt doc searchRange.endC : Int) - (searchRange.endO : Int)
      else 0
    if ((matchIndex : Int) + queryString.length > (searchBuffer.length : Int) - endInset) then
      Res.ok none
    else
      match rangeSetStart doc createRange start.1 start.2 with
      | Except.error e => Res.err e
      | Except.ok r1 =>
        match rangeSetEnd doc r1 endBp.1 endBp.2 with
        | Except.error e => Res.err e
        | Except.ok result => Res.ok (some result)

/-- The doctype-skipping loop the source adds to find-a-string-in-range
before re-anchoring the search range: take next nodes until one is not
a doctype. -/
def skipDoctypes (doc : DNode) : Nat → Option Path → Res (Option Path)
  | 0, _ => Res.fuelOut
  | fuel + 1, cur? =>
    match cur? with
    | some c =>
      if isDoctypeAt doc c then
        skipDoctypes doc fuel (nextNodeInShadowIncludingTreeOrder doc c)
      else Res.ok (some c)
    | none => Res.ok none

/-- The block-segment collection loop of find-a-string-in-range: walk
shadow-including tree order inside the block ancestor while the current
node does not start after the search range's end, stopping at a
block-level node, skipping search-invisible subtrees, and appending
visible text nodes.  Returns the collected list and the node the walk
stopped at. -/
def collectTextNodes (doc : DNode) (searchRange : JsRange)
    (blockAncestor : Option Path) :
    Nat → Option Path → List Path → Res (List Path × Option Path)
  | 0, _, _ => Res.fuelOut
  | fuel + 1, cur?, acc =>
    match cur? with
    | none => Res.ok (acc, none)
    | some c =>
      if ¬ isShadowIncludingDescendant c blockAncestor then Res.ok (acc, some c)
      else
        match rangeComparePoint doc searchRange c 0 with
        | Except.error e => Res.err e
        | Except.ok cmp =>
          if cmp = 1 then Res.ok (acc, some c)
          else if hasBlockLevelDisplayAt doc c then Res.ok (acc, some c)
          else if isSearchInvisibleAt doc c then
            match nextNodeNotInShadowIncludingDescendantOf doc fuel c with
            | Res.ok next? => collectTextNodes doc searchRange blockAncestor fuel next? acc
            | Res.err e => Res.err e
            | Res.fuelOut => Res.fuelOut
          else
            collectTextNodes doc searchRange blockAncestor fuel
              (nextNodeInShadowIncludingTreeOrder doc c)
              (if isVisibleTextNode doc c then acc ++ [c] else acc)

/-- The find-a-string-in-range steps: while the search range is not
collapsed, skip non-searchable subtrees and non-text positions, collect
the visible text nodes of the current block segment, search them, and
either return the found range or re-anchor the search range after the
segment.  The search range is mutated in place in the source, so its
final state is returned along with the result. -/
def findStringInRange (doc : DNode) (query : List Char) :
    Nat → JsRange → Res (Option JsRange × JsRange)
  | 0, _ => Res.fuelOut
  | fuel + 1, searchRange =>
    if rangeCollapsed searchRange then Res.ok (none, searchRange)
    else
      -- step 1.1: the current node is the search range's start node
      let curNode := searchRange.startC
      -- step 1.2: a non-searchable subtree is skipped entirely
      if partOfNonSearchableSubtree doc curNode then
        match nextNodeNotInShadowIncludingDescendantOf doc fuel curNode with
        | Res.ok next? =>
          (match rangeSetStartOpt doc searchRange next? 0 with
           | Except.ok r' => findStringInRange doc query fuel r'
           | Except.error e => Res.err e)
        | Res.err e => Res.err e
        | Res.fuelOut => Res.fuelOut
      -- step 1.3: a non-visible-text position hops forward, skipping doctypes
      else if ¬ isVisibleTextNode doc curNode then
        match skipDoctypes doc fuel (nextNodeInShadowIncludingTreeOrder doc curNode) with
        | Res.ok next? =>
          (match rangeSetStartOpt doc searchRange next? 0 with
           | Except.ok r' => findStringInRange doc query fuel r'
           | Except.error e => Res.err e)
        | Res.err e => Res.err e
        | Res.fuelOut => Res.fuelOut
      else
        -- step 1.4: collect and search the current block segment
        let blockAncestor := nearestBlockAncestorOf doc curNode
        match collectTextNodes doc searchRange blockAncestor fuel (some curNode) [] with
        | Res.err e => Res.err e
        | Res.fuelOut => Res.fuelOut
        | Res.ok (textNodeList, curFinal) =>
          match findARangeFromANodeList doc fuel query searchRange textNodeList with
          | Res.err e => Res.err e
          | Res.fuelOut => Res.fuelOut
          | Res.ok (some resultingRange) => Res.ok (some resultingRange, searchRange)
          | Res.ok none =>
            match curFinal with
            | none => Res.ok (none, searchRange)
            | some c =>
              match rangeSetStart doc searchRange c 0 with
              | Except.ok r' => findStringInRange doc query fuel r'
              | Except.error e => Res.err e

/-- The source's firstBoundaryPointAfter: the next offset within the
node, else the plain next node at offset zero. -/
def firstBoundaryPointAfter (doc : DNode) (bp : Path × Nat) : Option (Path × Nat) :=
  if bp.2 < nodeLengthAt doc bp.1 then some (bp.1, bp.2 + 1)
  else
    match nextNodePlain doc bp.1 with
    | some next => some (next, 0)
    | none => none

/-- Setting a range's start from a possibly-null boundary point, as the
source's spread of firstBoundaryPointAfter's result: null raises
TypeError. -/
def rangeSetStartBp (doc : DNode) (r : JsRange) (bp? : Option (Path × Nat)) :
    Except JsError JsRange :=
  match bp? with
  | none => Except.error JsError.typeError
  | some bp => rangeSetStart doc r bp.1 bp.2

/-- The outcome of one iteration of find-a-range-from-a-text-directive's
outer loop: the procedure returns a result, or the loop continues with
the advanced search range. -/
inductive FRStep where
  | ret (result : Option JsRange)
  | cont (searchRange : JsRange)
deriving DecidableEq, Repr

/-- The shared tail of both branches of the outer loop (steps 5 to 10):
without a suffix the potential match is returned; otherwise the suffix
must be found immediately at the whitespace-advanced position after the
potential match, a missing suffix failing the directive and a
mis-placed one sending the loop round again. -/
def findRangeSuffixPart (doc : DNode) (parsedValues : ParsedTextDirective)
    (fuel : Nat) (potentialMatch searchRange : JsRange) : Res FRStep :=
  match parsedValues.suffix with
  | none => Res.ok (FRStep.ret (some potentialMatch))
  | some suffixStr =>
    -- step 6: suffixRange from potentialMatch's end to searchRange's end
    match rangeSetStart doc createRange potentialMatch.endC potentialMatch.endO with
    | Except.error e => Res.err e
    | Except.ok s1 =>
      match rangeSetEnd doc s1 searchRange.endC searchRange.endO with
      | Except.error e => Res.err e
      | Except.ok suffixRange0 =>
        -- step 7: advance the suffix range's start past whitespace
        match advanceRangeStartToNextNonWhitespacePosition doc fuel suffixRange0 with
        | Res.err e => Res.err e
        | Res.fuelOut => Res.fuelOut
        | Res.ok suffixRange1 =>
          -- step 8: find the suffix in the suffix range
          match findStringInRange doc suffixStr fuel suffixRange1 with
          | Res.err e => Res.err e
          | Res.fuelOut => Res.fuelOut
          | Res.ok (suffixMatch?, suffixRange2) =>
            match suffixMatch? with
            -- step 9: no suffix anywhere fails the directive
            | none => Res.ok (FRStep.ret none)
            | some suffixMatch =>
              -- step 10: a suffix exactly at the advanced start confirms
              if samePoint (getStart suffixMatch) (getStart suffixRange2) then
                Res.ok (FRStep.ret (some potentialMatch))
              else Res.ok (FRStep.cont searchRange)

/-- The textEnd handling shared by both branches (step 2.11 and 3.4):
with a textEnd present the potential match's end is extended to the end
of the textEnd match found after it, a missing textEnd failing the
directive. -/
def findRangeTextEndPart (doc : DNode) (textEnd? : Option (List Char))
    (fuel : Nat) (potentialMatch searchRange : JsRange) : Res (Option JsRange) :=
  match textEnd? with
  | none => Res.ok (some potentialMatch)
  | some textEndStr =>
    match rangeSetStart doc createRange potentialMatch.endC potentialMatch.endO with
    | Except.error e => Res.err e
    | Except.ok t1 =>
      match rangeSetEnd doc t1 searchRange.endC searchRange.endO with
      | Except.error e => Res.err e
      | Except.ok textEndRange =>
        match findStringInRange doc textEndStr fuel textEndRange with
        | Res.err e => Res.err e
        | Res.fuelOut => Res.fuelOut
        | Res.ok (textEndMatch?, _) =>
          match textEndMatch? with
          | none => Res.ok none
          | some textEndMatch =>
            match rangeSetEnd doc potentialMatch textEndMatch.endC textEndMatch.endO with
            | Except.error e => Res.err e
            | Except.ok extended => Res.ok (some extended)

/-- One iteration of the outer loop of find-a-range-from-a-text-
directive: match the prefix and anchor textStart right after it (with
whitespace skipped), or match textStart word-start-bounded directly;
extend by textEnd when present; then confirm or refute the suffix. -/
def findRangeBody (doc : DNode) (parsedValues : ParsedTextDirective)
    (fuel : Nat) (searchRange : JsRange) : Res FRStep :=
  match parsedValues.prefixV with
  | some prefixStr =>
    -- step 2.1: find the prefix in the search range
    match findStringInRange doc prefixStr fuel searchRange with
    | Res.err e => Res.err e
    | Res.fuelOut => Res.fuelOut
    | Res.ok (prefixMatch?, searchRange1) =>
      match prefixMatch? with
      -- step 2.2: a prefix found nowhere fails the directive
      | none => Res.ok (FRStep.ret none)
      | some prefixMatch =>
        -- step 2.3: advance the search range past the prefix match's start
        match rangeSetStartBp doc searchRange1
            (firstBoundaryPointAfter doc (getStart prefixMatch)) with
        | Except.error e => Res.err e
        | Except.ok searchRange2 =>
          -- step 2.4: matchRange from the prefix match's end to the search range's end
          match rangeSetStart doc createRange prefixMatch.endC prefixMatch.endO with
          | Except.error e => Res.err e
          | Except.ok m1 =>
            match rangeSetEnd doc m1 searchRange2.endC searchRange2.endO with
            | Except.error e => Res.err e
            | Except.ok matchRange0 =>
              -- step 2.5: skip whitespace after the prefix
              match advanceRangeStartToNextNonWhitespacePosition doc fuel matchRange0 with
              | Res.err e => Res.err e
              | Res.fuelOut => Res.fuelOut
              | Res.ok matchRange1 =>
                -- step 2.6: nothing but whitespace left fails the directive
                if rangeCollapsed matchRange1 then Res.ok (FRStep.ret none)
                else
                  -- step 2.8: find textStart in the match range
                  match findStringInRange doc parsedValues.textStart fuel matchRange1 with
                  | Res.err e => Res.err e
                  | Res.fuelOut => Res.fuelOut
                  | Res.ok (potentialMatch?, matchRange2) =>
                    match potentialMatch? with
                    -- step 2.9: textStart found nowhere after the prefix fails
                    | none => Res.ok (FRStep.ret none)
                    | some potentialMatch0 =>
                      -- step 2.10: textStart not anchored at the match range's
                      -- (current, mutated) start: spurious prefix, try again
                      if ¬ samePoint (getStart potentialMatch0) (getStart matchRange2) then
                        Res.ok (FRStep.cont searchRange2)
                      else
                        -- step 2.11: extend by textEnd when present
                        match findRangeTextEndPart doc parsedValues.textEnd fuel
                            potentialMatch0 searchRange2 with
                        | Res.err e => Res.err e
                        | Res.fuelOut => Res.fuelOut
                        | Res.ok none => Res.ok (FRStep.ret none)
                        | Res.ok (some potentialMatch1) =>
                          findRangeSuffixPart doc parsedValues fuel
                            potentialMatch1 searchRange2
  | none =>
    -- step 3.1: find textStart directly in the search range
    match findStringInRange doc parsedValues.textStart fuel searchRange with
    | Res.err e => Res.err e
    | Res.fuelOut => Res.fuelOut
    | Res.ok (potentialMatch?, searchRange1) =>
      match potentialMatch? with
      -- step 3.2: textStart found nowhere fails the directive
      | none => Res.ok (FRStep.ret none)
      | some potentialMatch0 =>
        -- step 3.3: advance the search range past the match's start
        match rangeSetStartBp doc searchRange1
            (firstBoundaryPointAfter doc (getStart potentialMatch0)) with
        | Except.error e => Res.err e
        | Except.ok searchRange2 =>
          -- step 3.4: extend by textEnd when present
          match findRangeTextEndPart doc parsedValues.textEnd fuel
              potentialMatch0 searchRange2 with
          | Res.err e => Res.err e
          | Res.fuelOut => Res.fuelOut
          | Res.ok none => Res.ok (FRStep.ret none)
          | Res.ok (some potentialMatch1) =>
            findRangeSuffixPart doc parsedValues fuel potentialMatch1 searchRange2

/-- The outer while-loop of find-a-range-from-a-text-directive; falling
out of the loop with a collapsed search range returns null. -/
def findRangeLoop (doc : DNode) (parsedValues : ParsedTextDirective) :
    Nat → JsRange → Res (Option JsRange)
  | 0, _ => Res.fuelOut
  | fuel + 1, searchRange =>
    if rangeCollapsed searchRange then Res.ok none
    else
      match findRangeBody doc parsedValues fuel searchRange with
      | Res.ok (FRStep.ret r) => Res.ok r
      | Res.ok (FRStep.cont searchRange') => findRangeLoop doc parsedValues fuel searchRange'
      | Res.err e => Res.err e
      | Res.fuelOut => Res.fuelOut

/-- The find-a-range-from-a-text-directive steps: a search range over
the whole document, then the outer matching loop. -/
def findRangeFromTextDirective (doc : DNode) (fuel : Nat)
    (parsedValues : ParsedTextDirective) : Res (Option JsRange) :=
  match rangeSetStart doc createRange [] 0 with
  | Except.error e => Res.err e
  | Except.ok r1 =>
    match rangeSetEnd doc r1 [] (childrenOf doc).length with
    | Except.error e => Res.err e
    | Except.ok searchRange => findRangeLoop doc parsedValues fuel searchRange

/-- The process-a-fragment-directive steps: split the input on
ampersands, skip anything not matching the TextDirective production or
parsing to null, resolve each parsed directive, and collect the
non-null ranges in order.  An uncaught exception — a URIError from
percent-decoding or an internal error of the resolver — aborts the
whole batch, as it does in the source. -/
def processFragmentDirective (doc : DNode) (fuel : Nat) (input : List Char) :
    Res (List JsRange) :=
  go (splitOnChar '&' input) []
where
  /-- The for-each over the split directives, accumulating ranges. -/
  go : List (List Char) → List JsRange → Res (List JsRange)
  | [], acc => Res.ok acc
  | d :: rest, acc =>
    if ¬ isTextFragmentDirective d then go rest acc
    else
      match parseTextDirective d with
      | Except.error e => Res.err e
      | Except.ok none => go rest acc
      | Except.ok (some parsedValues) =>
        match findRangeFromTextDirective doc fuel parsedValues with
        | Res.err e => Res.err e
        | Res.fuelOut => Res.fuelOut
        | Res.ok (some range) => go rest (acc ++ [range])
        | Res.ok none => go rest acc

/-! Concrete sample documents used by witnesses and counterexamples. -/

/-- Element facts for the sample documents: an HTML-namespace element
with the given local name and computed display, visible, no
attributes. -/
def sampleElemInfo (nm disp : String) : ElemInfo :=
  ⟨some htmlNamespace, cs nm, cs disp, cs "visible", []⟩

/-- A document whose body holds a single visible text node. -/
def docOneText (t : String) : DNode :=
  DNode.document [DNode.element (sampleElemInfo "html" "block") none
    [DNode.element (sampleElemInfo "body" "block") none [DNode.text (cs t)]]]

/-- The path of that text node. -/
def bodyTextPath : Path := [Step.child 0, Step.child 0, Step.child 0]

/-- The path of the body element. -/
def bodyPath : Path := [Step.child 0, Step.child 0]

/-- A document with no children at all. -/
def emptyDoc : DNode := DNode.document []

/-- A document whose body is empty: its last node in tree order is an
element. -/
def emptyBodyDoc : DNode :=
  DNode.document [DNode.element (sampleElemInfo "html" "block") none
    [DNode.element (sampleElemInfo "body" "block") none []]]

/-- The total node length of a list of node references. -/
def sumNodeLengths (doc : DNode) (l : List Path) : Nat :=
  (l.map (nodeLengthAt doc)).sum

/-- Whether a resolver outcome is a successfully found range. -/
def foundRange : Res (Option JsRange) → Bool
  | Res.ok (some _) => true
  | _ => false

/-- Whether a successful processing outcome carries no ranges; an error
or fuel exhaustion counts vacuously. -/
def emptyWhenOk : Res (List JsRange) → Bool
  | Res.ok l => l.isEmpty
  | _ => true

/-- One character sequence occurring contiguously inside another. -/
def containsSeq (needle hay : List Char) : Prop :=
  ∃ pre post, hay = pre ++ needle ++ post

/-- Divergence of two node paths at a position where the second takes a
later branch: the shape produced by every sibling-or-up move of the
tree walks, deciding the boundary-point comparison before either offset
is reached. -/
def pathDivGt (p q : Path) : Prop :=
  ∃ pre a b p2 q2, p = pre ++ a :: p2 ∧ q = pre ++ b :: q2 ∧ stepEnc a < stepEnc b

/-- Non-strict comparison of boundary-point keys: strictly smaller or
equal. -/
def keyLe (k1 k2 : List Nat) : Prop := lexLt k1 k2 = true ∨ k1 = k2

mutual
/-- Whether a character occurs, after lowercasing, in no character data
anywhere in a subtree, shadow roots included. -/
def charFreeNode (c : Char) : DNode → Bool
  | DNode.document children => charFreeList c children
  | DNode.doctype => true
  | DNode.element _ shadow children =>
    (match shadow with
     | some sc => charFreeList c sc
     | none => true) && charFreeList c children
  | DNode.shadowRoot children => charFreeList c children
  | DNode.text d => decide (c ∉ lowerStr d)
  | DNode.comment d => decide (c ∉ lowerStr d)

/-- Character freedom over a list of subtrees. -/
def charFreeList (c : Char) : List DNode → Bool
  | [] => true
  | n :: rest => charFreeNode c n && charFreeList c rest
end

theorem specParseFinal_refines (sp ss pv sv : Option (List Char))
    (toks2 : List (List Char)) (r : Option ParsedTextDirective)
    (hp : decodeOpt sp = some pv) (hs : decodeOpt ss = some sv)
    (h : parseSteps11to14 pv sv toks2 = Except.ok r) :
    specParseFinal sp ss toks2 = r := by
  match toks2 with
  | [] => simp [parseSteps11to14] at h; simp [specParseFinal, ← h]
  | [a] =>
    simp only [parseSteps11to14, List.length_cons, List.length_nil] at h
    simp only [specParseFinal, hp, hs]
    norm_num at h
    cases ha : jsDecode a with
    | none => simp only [List.headD, ha] at h; cases h
    | some ts => simp only [List.headD, ha] at h; cases h; rfl
  | [a, b] =>
    simp only [parseSteps11to14, List.length_cons, List.length_nil] at h
    simp only [specParseFinal, hp, hs]
    norm_num at h
    cases ha : jsDecode a with
    | none => simp only [List.headD, ha] at h; cases h
    | some ts =>
      simp only [List.headD, ha] at h
      cases hb : jsDecode b with
      | none => simp [hb] at h
      | some te => simp [hb] at h; simp [ha, hb, ← h]
  | a :: b :: c :: t =>
    simp only [parseSteps11to14, List.length_cons] at h
    rw [if_pos (by omega)] at h
    cases h
    simp [specParseFinal]

theorem specParseTail_refines (sp pv : Option (List Char))
    (toks1 : List (List Char)) (r : Option ParsedTextDirective)
    (hp : decodeOpt sp = some pv)
    (h : parseSteps9to14 pv toks1 = Except.ok r) :
    specParseTail sp toks1 = r := by
  unfold parseSteps9to14 at h
  unfold specParseTail
  cases hgl : toks1.getLast? with
  | none =>
    simp only [hgl] at h ⊢
    exact specParseFinal_refines sp none pv none toks1 r hp rfl h
  | some s =>
    simp only [hgl] at h ⊢
    by_cases hd : s.head? = some '-'
    · rw [if_pos hd] at h
      rw [if_pos hd]
      cases hq : jsDecode (s.drop 1) with
      | none => simp only [hq] at h; cases h
      | some q =>
        simp only [hq] at h
        exact specParseFinal_refines sp (some (s.drop 1)) pv (some q) toks1.dropLast r hp
          (by simp only [decodeOpt, hq]; rfl) h
    · rw [if_neg hd] at h
      rw [if_neg hd]
      exact specParseFinal_refines sp none pv none toks1 r hp rfl h

theorem parse_refines_spec (input : List Char) (r : Option ParsedTextDirective)
    (h : parseTextDirective input = Except.ok r) :
    specParseTextDirective input = r := by
  simp only [parseTextDirective] at h
  simp only [specParseTextDirective]
  generalize htoks : splitOnChar ',' (input.drop 5) = toks at h ⊢
  clear htoks
  by_cases h1 : toks.length < 1 ∨ toks.length > 4
  · rw [if_pos h1] at h
    cases h
    rw [if_pos (by rcases h1 with h1 | h1; exact Or.inl h1; exact Or.inr (Or.inl h1))]
  · rw [if_neg h1] at h
    by_cases h2 : toks.any List.isEmpty
    · rw [if_pos h2] at h
      cases h
      rw [if_pos (Or.inr (Or.inr h2))]
    · rw [if_neg h2] at h
      rw [if_neg (by push_neg; constructor; omega; constructor; omega; simpa using h2)]
      by_cases hp : (toks.headD []).getLast? = some '-'
      · rw [if_pos hp] at h
        rw [if_pos hp]
        cases hd : jsDecode (toks.headD []).dropLast with
        | none => rw [hd] at h; cases h
        | some p =>
          rw [hd] at h
          exact specParseTail_refines (some (toks.headD []).dropLast) (some p) toks.tail r
            (by simp only [decodeOpt, hd]; rfl) h
      · rw [if_neg hp] at h
        rw [if_neg hp]
        exact specParseTail_refines none none toks r rfl h

theorem parseSteps11to14_count (pv sv : Option (List Char))
    (tokens2 : List (List Char))
    (h1 : tokens2.length ≠ 1) (h2 : tokens2.length ≠ 2) :
    parseSteps11to14 pv sv tokens2 = Except.ok none := by
  unfold parseSteps11to14
  rw [if_pos ⟨h1, h2⟩]

theorem parseSteps9to14_count (pv : Option (List Char))
    (tokens1 : List (List Char))
    (h1 : (remTokensSuffix tokens1).length ≠ 1)
    (h2 : (remTokensSuffix tokens1).length ≠ 2) :
    parseSteps9to14 pv tokens1 = Except.ok none ∨
    parseSteps9to14 pv tokens1 = Except.error JsError.uriError := by
  unfold parseSteps9to14
  unfold remTokensSuffix at h1 h2
  cases hgl : tokens1.getLast? with
  | none =>
    simp only [hgl] at h1 h2 ⊢
    exact Or.inl (parseSteps11to14_count pv none tokens1 h1 h2)
  | some s =>
    simp only [hgl] at h1 h2 ⊢
    by_cases hd : s.head? = some '-'
    · rw [if_pos hd] at h1 h2 ⊢
      cases hq : jsDecode (s.drop 1) with
      | none => exact Or.inr rfl
      | some q => exact Or.inl (parseSteps11to14_count pv (some q) tokens1.dropLast h1 h2)
    · rw [if_neg hd] at h1 h2 ⊢
      exact Or.inl (parseSteps11to14_count pv none tokens1 h1 h2)

theorem matchesBoundaryAt_le (t : List Char) (p : Nat)
    (h : matchesBoundaryAt t p = true) : p ≤ t.length := by
  by_contra hgt
  push_neg at hgt
  unfold matchesBoundaryAt at h
  have h1 : t.get? (p - 1) = none := List.get?_eq_none.mpr (by omega)
  have h2 : t.get? p = none := List.get?_eq_none.mpr (by omega)
  have e0 : (p == 0) = false := by simp; omega
  have e1 : (p == t.length) = false := by simp; omega
  have e2 : wordCharAt t (p - 1) = wordCharAt t p := by
    unfold wordCharAt; rw [h1, h2]
  have e3 : decide (p < t.length) = false := by simp; omega
  rw [e0, e1, e2, e3] at h
  simp at h

theorem mem_allBoundaries (t : List Char) (p : Nat) :
    p ∈ allBoundaries t ↔ matchesBoundaryAt t p = true := by
  constructor
  · intro h
    exact (List.mem_filter.mp h).2
  · intro h
    exact List.mem_filter.mpr ⟨List.mem_range.mpr (by have := matchesBoundaryAt_le t p h; omega), h⟩

theorem allBoundaries_pairwise (t : List Char) :
    (allBoundaries t).Pairwise (· < ·) :=
  (List.pairwise_lt_range _).filter _

theorem find_le_of_descending {l : List Int} (hl : l.Pairwise (· > ·)) (s a : Int)
    (ha : a ∈ l) (has : a ≤ s) (hmax : ∀ b ∈ l, b ≤ s → b ≤ a) :
    l.find? (fun b => decide (b ≤ s)) = some a := by
  induction l with
  | nil => cases ha
  | cons x xs ih =>
    rw [List.find?_cons]
    by_cases hx : x ≤ s
    · simp only [decide_eq_true_eq, hx, decide_True]
      have hxa : x ≤ a := hmax x (List.mem_cons_self _ _) hx
      rcases List.mem_cons.mp ha with rfl | hmem
      · rfl
      · have : x > a := (List.pairwise_cons.mp hl).1 a hmem
        omega
    · simp only [decide_eq_false hx]
      rcases List.mem_cons.mp ha with rfl | hmem
      · omega
      · exact ih (List.pairwise_cons.mp hl).2 hmem
          (fun b hb hbs => hmax b (List.mem_cons_of_mem _ hb) hbs)

theorem find_gt_of_ascending {l : List Int} (hl : l.Pairwise (· < ·)) (e a : Int)
    (ha : a ∈ l) (hgt : e < a) (hmin : ∀ b ∈ l, e < b → a ≤ b) :
    l.find? (fun b => decide (e < b)) = some a := by
  induction l with
  | nil => cases ha
  | cons x xs ih =>
    rw [List.find?_cons]
    by_cases hx : e < x
    · simp only [hx, decide_True]
      have hax : a ≤ x := hmin x (List.mem_cons_self _ _) hx
      rcases List.mem_cons.mp ha with rfl | hmem
      · rfl
      · have : x < a := (List.pairwise_cons.mp hl).1 a hmem
        omega
    · simp only [decide_eq_false hx]
      rcases List.mem_cons.mp ha with rfl | hmem
      · omega
      · exact ih (List.pairwise_cons.mp hl).2 hmem
          (fun b hb hbs => hmin b (List.mem_cons_of_mem _ hb) hbs)

theorem isWordBounded_iff (text : List Char) (s c : Nat) (l1 l2 : List Char)
    (hc : 1 ≤ c) :
    isWordBounded text s c l1 l2 = true ↔
      (matchesBoundaryAt text s = true ∧ matchesBoundaryAt text (s + c) = true) := by
  have hpair : ((allBoundaries text).map (Nat.cast : Nat → Int)).Pairwise (· < ·) := by
    rw [List.pairwise_map]
    exact (allBoundaries_pairwise text).imp (fun h => by exact_mod_cast h)
  have hpairrev : (((allBoundaries text).map (Nat.cast : Nat → Int)).reverse).Pairwise (· > ·) := by
    rw [List.pairwise_reverse]
    exact hpair
  have hmem : ∀ p : Nat, ((p : Int) ∈ (allBoundaries text).map (Nat.cast : Nat → Int)) ↔
      matchesBoundaryAt text p = true := by
    intro p
    rw [List.mem_map]
    constructor
    · rintro ⟨q, hq, hqe⟩
      have hqp : q = p := by exact_mod_cast hqe
      subst hqp
      exact (mem_allBoundaries text q).mp hq
    · intro h
      exact ⟨p, (mem_allBoundaries text p).mpr h, rfl⟩
  constructor
  · intro h
    unfold isWordBounded at h
    cases hlb : nearestWordBoundary text s BoundaryDirection.before l1 with
    | none => simp only [hlb] at h; cases h
    | some leftBound =>
      simp only [hlb] at h
      by_cases hne : leftBound ≠ (s : Int)
      · rw [if_pos hne] at h; cases h
      · push_neg at hne
        subst hne
        rw [if_neg (by omega)] at h
        cases hrb : nearestWordBoundary text ((s : Int) + c - 1) BoundaryDirection.after l2 with
        | none => simp only [hrb] at h; cases h
        | some rightBound =>
          simp only [hrb] at h
          by_cases hne2 : rightBound - 1 ≠ (s : Int) + c - 1
          · rw [if_pos hne2] at h; cases h
          · push_neg at hne2
            have hrbv : rightBound = (s : Int) + c := by omega
            subst hrbv
            simp only [nearestWordBoundary] at hlb hrb
            have h1 := List.mem_reverse.mp (List.mem_of_find?_eq_some hlb)
            have h2 := List.mem_of_find?_eq_some hrb
            constructor
            · exact (hmem s).mp h1
            · have : ((s + c : Nat) : Int) = (s : Int) + c := by push_cast; ring
              exact (hmem (s + c)).mp (by rw [this]; exact h2)
  · rintro ⟨hs, hsc⟩
    simp only [isWordBounded, nearestWordBoundary]
    have hfind1 : ((allBoundaries text).map (Nat.cast : Nat → Int)).reverse.find?
        (fun b => decide (b ≤ (s : Int))) = some ((s : Nat) : Int) := by
      apply find_le_of_descending hpairrev
      · rw [List.mem_reverse]; exact (hmem s).mpr hs
      · omega
      · intro b _ hbs; exact hbs
    simp only [hfind1]
    rw [if_neg (by omega)]
    have hfind2 : ((allBoundaries text).map (Nat.cast : Nat → Int)).find?
        (fun b => decide ((s : Int) + c - 1 < b)) = some ((s : Int) + c) := by
      have hcast : ((s + c : Nat) : Int) = (s : Int) + c := by push_cast; ring
      apply find_gt_of_ascending hpair
      · rw [← hcast]; exact (hmem (s + c)).mpr hsc
      · omega
      · intro b _ hbs; omega
    simp only [hfind2]
    rw [if_neg (by omega)]

/-- C3: the parser can in fact produce a ParsedTextDirective holding the
empty string: on the token text=-,foo the first comma-field is the
single dash, which survives the empty-field check, and stripping its
trailing dash leaves the empty prefix.  This contradicts the
non-empty-string invariant that the source itself documents for
ParsedTextDirective, so the claim describes the intent and the code
breaks it. -/
theorem claim_C3_empty_prefix_bug :
    parseTextDirective (cs "text=-,foo") =
      Except.ok (some ⟨cs "foo", none, some [], none⟩) := rfl

/-- C4: parsing text=foo-,bar,baz,-qux yields prefix foo, textStart bar,
textEnd baz and suffix qux; parsing text=hello yields textStart hello
with the other three fields null; and in general every successful parse
agrees with the specified grammar shape (trailing-dash first token is
the prefix, leading-dash last token is the suffix, the remaining one or
two tokens are the percent-decoded textStart and textEnd). -/
theorem claim_C4_parser_round_trip :
    parseTextDirective (cs "text=foo-,bar,baz,-qux") =
      Except.ok (some ⟨cs "bar", some (cs "baz"), some (cs "foo"), some (cs "qux")⟩)
  ∧ parseTextDirective (cs "text=hello") =
      Except.ok (some ⟨cs "hello", none, none, none⟩)
  ∧ ∀ input r, parseTextDirective input = Except.ok r →
      specParseTextDirective input = r :=
  ⟨rfl, rfl, parse_refines_spec⟩

/-- Witness for C4: the general agreement applied at the concrete input
text=hello, with its hypothesis discharged by evaluation. -/
theorem claim_C4_witness :
    specParseTextDirective (cs "text=hello") =
      some ⟨cs "hello", none, none, none⟩ :=
  claim_C4_parser_round_trip.2.2 (cs "text=hello")
    (some ⟨cs "hello", none, none, none⟩) claim_C4_parser_round_trip.2.1

/-- C5 (amended): a token whose comma-split count is outside 1..4 or
that has an empty field parses to null, and text= and text=a,b,c,d,e
parse to null; when after removing a trailing-dash first token and a
leading-dash last token the remaining count is neither 1 nor 2 the
parser returns null unless a prefix or suffix percent-decoding fails,
in which case it raises URIError instead of returning null. -/
theorem claim_C5_amended :
    (∀ input : List Char,
      (splitOnChar ',' (input.drop 5)).length < 1 ∨
        (splitOnChar ',' (input.drop 5)).length > 4 →
      parseTextDirective input = Except.ok none)
  ∧ (∀ input : List Char,
      (splitOnChar ',' (input.drop 5)).any List.isEmpty →
      parseTextDirective input = Except.ok none)
  ∧ (∀ input : List Char,
      (remTokens (splitOnChar ',' (input.drop 5))).length ≠ 1 →
      (remTokens (splitOnChar ',' (input.drop 5))).length ≠ 2 →
      parseTextDirective input = Except.ok none ∨
        parseTextDirective input = Except.error JsError.uriError)
  ∧ parseTextDirective (cs "text=") = Except.ok none
  ∧ parseTextDirective (cs "text=a,b,c,d,e") = Except.ok none := by
  refine ⟨?_, ?_, ?_, rfl, rfl⟩
  · intro input h1
    simp only [parseTextDirective]
    rw [if_pos h1]
  · intro input h2
    simp only [parseTextDirective]
    by_cases h1 : (splitOnChar ',' (input.drop 5)).length < 1 ∨
        (splitOnChar ',' (input.drop 5)).length > 4
    · rw [if_pos h1]
    · rw [if_neg h1, if_pos h2]
  · intro input hr1 hr2
    simp only [parseTextDirective]
    unfold remTokens at hr1 hr2
    by_cases h1 : (splitOnChar ',' (input.drop 5)).length < 1 ∨
        (splitOnChar ',' (input.drop 5)).length > 4
    · rw [if_pos h1]; exact Or.inl rfl
    · rw [if_neg h1]
      by_cases h2 : (splitOnChar ',' (input.drop 5)).any List.isEmpty
      · rw [if_pos h2]; exact Or.inl rfl
      · rw [if_neg h2]
        by_cases hp : ((splitOnChar ',' (input.drop 5)).headD []).getLast? = some '-'
        · rw [if_pos hp]
          rw [if_pos hp] at hr1 hr2
          cases hd : jsDecode ((splitOnChar ',' (input.drop 5)).headD []).dropLast with
          | none => exact Or.inr rfl
          | some p =>
            exact parseSteps9to14_count (some p) (splitOnChar ',' (input.drop 5)).tail hr1 hr2
        · rw [if_neg hp]
          rw [if_neg hp] at hr1 hr2
          exact parseSteps9to14_count none (splitOnChar ',' (input.drop 5)) hr1 hr2

/-- Witness for C5: the amended statement applied at concrete inputs
with all hypotheses discharged by evaluation. -/
theorem claim_C5_witness :
    parseTextDirective (cs "text=a,b,c,d,e") = Except.ok none
  ∧ (parseTextDirective (cs "text=a-,-b") = Except.ok none ∨
      parseTextDirective (cs "text=a-,-b") = Except.error JsError.uriError) :=
  ⟨claim_C5_amended.1 (cs "text=a,b,c,d,e") (by right; decide),
   claim_C5_amended.2.2.1 (cs "text=a-,-b") (by decide) (by decide)⟩

/-- C5 (counterexample): the token text=%-,a,b,c has four non-empty
comma-fields and a remaining count of three after removing its
trailing-dash first token, so the claim says it parses to null; the
code instead raises URIError while percent-decoding the prefix. -/
theorem claim_C5_counterexample :
    parseTextDirective (cs "text=%-,a,b,c") = Except.error JsError.uriError
  ∧ (splitOnChar ',' ((cs "text=%-,a,b,c").drop 5)).length = 4
  ∧ (splitOnChar ',' ((cs "text=%-,a,b,c").drop 5)).any List.isEmpty = false
  ∧ (remTokens (splitOnChar ',' ((cs "text=%-,a,b,c").drop 5))).length = 3 :=
  ⟨rfl, rfl, rfl, rfl⟩

/-- C9: when the start of a range sits inside a visible text node that
is not in a non-searchable subtree, one iteration of the whitespace
advance consumes six characters when the substring data at the offset
is the literal six-character ampersand-n-b-s-p-semicolon sequence, five
when it is the unterminated five-character form, one when the code
point at the offset has the White_Space property, and returns
immediately at a code point without it. -/
theorem claim_C9_whitespace_units (doc : DNode) (range : JsRange) (d : List Char)
    (fuel : Nat)
    (ht : resolve doc range.startC = some (DNode.text d))
    (hns : partOfNonSearchableSubtree doc range.startC = false)
    (hvis : isVisibleTextNode doc range.startC = true)
    (ho : range.startO ≤ d.length) :
    (substringData doc range.startC range.startO 6 = Except.ok (cs "&nbsp;") →
      range.startO + 6 < d.length →
      ∃ r', advanceStep doc fuel range = Res.ok (StepOut.cont r') ∧
        r'.startC = range.startC ∧ r'.startO = range.startO + 6)
  ∧ (substringData doc range.startC range.startO 6 ≠ Except.ok (cs "&nbsp;") →
      substringData doc range.startC range.startO 5 = Except.ok (cs "&nbsp") →
      range.startO + 5 < d.length →
      ∃ r', advanceStep doc fuel range = Res.ok (StepOut.cont r') ∧
        r'.startC = range.startC ∧ r'.startO = range.startO + 5)
  ∧ (∀ ch, substringData doc range.startC range.startO 6 ≠ Except.ok (cs "&nbsp;") →
      substringData doc range.startC range.startO 5 ≠ Except.ok (cs "&nbsp") →
      d.get? range.startO = some ch →
      hasWhiteSpaceProperty ch.toNat = true →
      range.startO + 1 < d.length →
      ∃ r', advanceStep doc fuel range = Res.ok (StepOut.cont r') ∧
        r'.startC = range.startC ∧ r'.startO = range.startO + 1)
  ∧ (∀ ch, substringData doc range.startC range.startO 6 ≠ Except.ok (cs "&nbsp;") →
      substringData doc range.startC range.startO 5 ≠ Except.ok (cs "&nbsp") →
      d.get? range.startO = some ch →
      hasWhiteSpaceProperty ch.toNat = false →
      advanceStep doc fuel range = Res.ok (StepOut.ret range)) := by
  have hlen : nodeLengthAt doc range.startC = d.length := by
    unfold nodeLengthAt
    rw [ht]
    rfl
  have hsub : ∀ k, substringData doc range.startC range.startO k =
      Except.ok ((d.drop range.startO).take k) := by
    intro k
    unfold substringData
    simp only [ht, nodeLength, dataOf]
    rw [if_neg (by omega)]
    by_cases hk : range.startO + k > d.length
    · rw [if_pos hk]
      congr 1
      rw [List.take_of_length_le]
      rw [List.length_drop]
      omega
    · rw [if_neg hk]
  have hconsume : ∀ k, range.startO + k < d.length →
      ∃ r', advanceStep.advanceConsume doc range range.startC (range.startO + k) =
        Res.ok (StepOut.cont r') ∧
        r'.startC = range.startC ∧ r'.startO = range.startO + k := by
    intro k hk
    unfold advanceStep.advanceConsume
    unfold rangeSetStart
    simp only [ht, nodeLength]
    rw [if_neg (by omega)]
    by_cases hcase : rootPath range.startC ≠ rootPath range.startC ∨
        bpBefore range.endC range.endO range.startC (range.startO + k) = true
    · rw [if_pos hcase]
      refine ⟨⟨range.startC, range.startO + k, range.startC, range.startO + k⟩, ?_, rfl, rfl⟩
      have : (⟨range.startC, range.startO + k, range.startC, range.startO + k⟩ :
          JsRange).startO ≠ nodeLengthAt doc range.startC := by
        simp only [hlen]
        simpa using by omega
      dsimp only
      rw [if_neg this]
    · rw [if_neg hcase]
      refine ⟨⟨range.startC, range.startO + k, range.endC, range.endO⟩, ?_, rfl, rfl⟩
      have : (⟨range.startC, range.startO + k, range.endC, range.endO⟩ :
          JsRange).startO ≠ nodeLengthAt doc range.startC := by
        simp only [hlen]
        simpa using by omega
      dsimp only
      rw [if_neg this]
  refine ⟨?_, ?_, ?_, ?_⟩
  · intro h6 hlt
    rw [hsub 6] at h6
    unfold advanceStep
    rw [if_neg (by simp [hns]), if_neg (by simp [hvis])]
    simp only [hsub 6]
    simp only [Except.ok.injEq] at h6
    rw [if_pos h6]
    exact hconsume 6 hlt
  · intro h6 h5 hlt
    rw [hsub 6] at h6
    rw [hsub 5] at h5
    unfold advanceStep
    rw [if_neg (by simp [hns]), if_neg (by simp [hvis])]
    simp only [hsub 6]
    rw [if_neg (by simpa using h6)]
    simp only [hsub 5]
    simp only [Except.ok.injEq] at h5
    rw [if_pos h5]
    exact hconsume 5 hlt
  · intro ch h6 h5 hch hws hlt
    rw [hsub 6] at h6
    rw [hsub 5] at h5
    unfold advanceStep
    rw [if_neg (by simp [hns]), if_neg (by simp [hvis])]
    simp only [hsub 6]
    rw [if_neg (by simpa using h6)]
    simp only [hsub 5]
    rw [if_neg (by simpa using h5)]
    have hdata : dataOfAt doc range.startC = d := by
      unfold dataOfAt
      simp only [ht, dataOf]
    simp only [hdata, hch]
    rw [if_pos hws]
    exact hconsume 1 hlt
  · intro ch h6 h5 hch hws
    rw [hsub 6] at h6
    rw [hsub 5] at h5
    unfold advanceStep
    rw [if_neg (by simp [hns]), if_neg (by simp [hvis])]
    simp only [hsub 6]
    rw [if_neg (by simpa using h6)]
    simp only [hsub 5]
    rw [if_neg (by simpa using h5)]
    have hdata : dataOfAt doc range.startC = d := by
      unfold dataOfAt
      simp only [ht, dataOf]
    simp only [hdata, hch]
    rw [if_neg (by simp [hws])]

/-- Witness for C9: the six-character literal at the start of the text
node ampersand-n-b-s-p-semicolon-x-y is consumed as one whitespace
unit, with every hypothesis discharged at the concrete document. -/
theorem claim_C9_witness :
    ∃ r', advanceStep (docOneText "&nbsp;xy") 1000
        (⟨bodyTextPath, 0, [], 1⟩ : JsRange) = Res.ok (StepOut.cont r') ∧
      r'.startC = (⟨bodyTextPath, 0, [], 1⟩ : JsRange).startC ∧
      r'.startO = (⟨bodyTextPath, 0, [], 1⟩ : JsRange).startO + 6 :=
  (claim_C9_whitespace_units (docOneText "&nbsp;xy") ⟨bodyTextPath, 0, [], 1⟩
    (cs "&nbsp;xy") 1000 (by rfl) (by rfl) (by rfl) (by decide)).1 (by rfl) (by decide)

/-- C10 (counterexample): on a document whose body holds the text x,
advancing the range with start (body, 1) and end (document, 1) moves
the start to (text, 0), a position strictly before (body, 1) in tree
order — the start moved backwards.  The end boundary point is
unchanged. -/
theorem claim_C10_counterexample :
    advanceRangeStartToNextNonWhitespacePosition (docOneText "x") 1000
        (⟨bodyPath, 1, [], 1⟩ : JsRange) =
      Res.ok (⟨bodyTextPath, 0, [], 1⟩ : JsRange)
  ∧ bpBefore bodyTextPath 0 bodyPath 1 = true :=
  ⟨rfl, rfl⟩

/-- C8: isWordBounded is true exactly when the boundary immediately
preceding the start is the start itself and the boundary immediately
following the last character sits immediately after it — equivalently,
when both the start and the position one past the end are boundary
positions of the text — with the start and end of the string always
counting as boundaries; consequently the word-bounded search finds no
cat in concatenate but matches the isolated cat of the-cat-sat at
offsets four to seven. -/
theorem claim_C8_word_bounded :
    (∀ (text : List Char) (s c : Nat) (l1 l2 : List Char), 1 ≤ c →
      (isWordBounded text s c l1 l2 = true ↔
        (matchesBoundaryAt text s = true ∧ matchesBoundaryAt text (s + c) = true)))
  ∧ (∀ t : List Char, matchesBoundaryAt t 0 = true ∧ matchesBoundaryAt t t.length = true)
  ∧ findStringInRange (docOneText "concatenate") (cs "cat") 1000
      (⟨[], 0, [], 1⟩ : JsRange) = Res.ok (none, ⟨bodyTextPath, 0, [], 1⟩)
  ∧ findStringInRange (docOneText "the cat sat") (cs "cat") 1000
      (⟨[], 0, [], 1⟩ : JsRange) =
      Res.ok (some ⟨bodyTextPath, 4, bodyTextPath, 7⟩, ⟨bodyTextPath, 0, [], 1⟩) := by
  refine ⟨isWordBounded_iff, ?_, rfl, rfl⟩
  intro t
  constructor
  · simp [matchesBoundaryAt]
  · simp [matchesBoundaryAt]

/-- Witness for C8: the equivalence applied at the two concrete
searches of the claim. -/
theorem claim_C8_witness :
    isWordBounded (cs "the cat sat") 4 3 [] [] = true ∧
    isWordBounded (cs "concatenate") 3 3 [] [] = false :=
  ⟨(claim_C8_word_bounded.1 (cs "the cat sat") 4 3 [] [] (by decide)).mpr
     (by constructor <;> rfl),
   by
    have h := claim_C8_word_bounded.1 (cs "concatenate") 3 3 [] [] (by decide)
    rcases hb : isWordBounded (cs "concatenate") 3 3 [] [] with _ | _
    · rfl
    · exact absurd ((h.mp hb).1) (by decide)⟩

/-- C1 (counterexample): on a document whose body is empty, resolving a
directive whose textStart occurs nowhere raises TypeError instead of
returning null: the search walk runs off the last node of the tree and
the null next-node is passed to Range.setStart. -/
theorem claim_C1_counterexample :
    findRangeFromTextDirective emptyBodyDoc 1000 ⟨cs "a", none, none, none⟩ =
      Res.err JsError.typeError := rfl

/-- C2 (counterexample): the malformed directive text=% raises URIError
from percent-decoding and aborts the whole batch, so on a childless
document the input text=%-and-text=a yields an error where the claim
requires the empty list; alone, the same non-matching second directive
is processed fine. -/
theorem claim_C2_counterexample :
    processFragmentDirective emptyDoc 1000 (cs "text=%&text=a") =
      Res.err JsError.uriError
  ∧ processFragmentDirective emptyDoc 1000 (cs "text=a") = Res.ok [] :=
  ⟨rfl, rfl⟩

/-- Helper for C2: the directive fold appends, in order, exactly the
ranges of the directives that parse and resolve, onto the accumulator,
whenever it completes without an exception. -/
theorem processGo_ok (doc : DNode) (fuel : Nat) :
    ∀ (l : List (List Char)) (acc out : List JsRange),
      processFragmentDirective.go doc fuel l acc = Res.ok out →
      out = acc ++ l.filterMap (fun d =>
        if isTextFragmentDirective d then
          match parseTextDirective d with
          | Except.ok (some pv) =>
            (match findRangeFromTextDirective doc fuel pv with
             | Res.ok (some r) => some r
             | _ => none)
          | _ => none
        else none) := by
  intro l
  induction l with
  | nil =>
    intro acc out h
    unfold processFragmentDirective.go at h
    cases h
    simp
  | cons d rest ih =>
    intro acc out h
    unfold processFragmentDirective.go at h
    rw [List.filterMap_cons]
    by_cases hd : isTextFragmentDirective d
    · rw [if_neg (by simp [hd])] at h
      rw [if_pos hd]
      cases hp : parseTextDirective d with
      | error e => rw [hp] at h; cases h
      | ok pv? =>
        rw [hp] at h
        cases pv? with
        | none => simpa using ih acc out h
        | some pv =>
          cases hf : findRangeFromTextDirective doc fuel pv with
          | err e => simp only [hf] at h; cases h
          | fuelOut => simp only [hf] at h; cases h
          | ok r? =>
            simp only [hf] at h ⊢
            cases r? with
            | none => simpa using ih acc out h
            | some r =>
              have := ih (acc ++ [r]) out h
              simpa using this
    · rw [if_pos (by simpa using hd)] at h
      rw [if_neg hd]
      exact ih acc out h

/-- C2 (amended): whenever processFragmentDirective completes without
an exception, its output is exactly the in-order collection over the
ampersand-separated directives of the ranges of those directives that
match the TextDirective production, parse to non-null and resolve to a
range — so malformed, unparsable and non-matching directives contribute
nothing and do not affect later directives; a directive that raises
(a URIError while percent-decoding, or an internal resolver error)
instead aborts the whole batch. -/
theorem claim_C2_amended :
    ∀ (doc : DNode) (fuel : Nat) (input : List Char) (l : List JsRange),
      processFragmentDirective doc fuel input = Res.ok l →
      l = (splitOnChar '&' input).filterMap (fun d =>
        if isTextFragmentDirective d then
          match parseTextDirective d with
          | Except.ok (some pv) =>
            (match findRangeFromTextDirective doc fuel pv with
             | Res.ok (some r) => some r
             | _ => none)
          | _ => none
        else none) := by
  intro doc fuel input l h
  unfold processFragmentDirective at h
  simpa using processGo_ok doc fuel (splitOnChar '&' input) [] l h

/-- Witness for C2: the amended characterization applied to a concrete
batch holding a malformed directive, a matching one and a non-matching
one, on the one-text sample document. -/
theorem claim_C2_witness :
    [(⟨bodyTextPath, 4, bodyTextPath, 9⟩ : JsRange)] =
      (splitOnChar '&' (cs "text=hello&bogus&text=zz")).filterMap (fun d =>
        if isTextFragmentDirective d then
          match parseTextDirective d with
          | Except.ok (some pv) =>
            (match findRangeFromTextDirective (docOneText "say hello now") 1000 pv with
             | Res.ok (some r) => some r
             | _ => none)
          | _ => none
        else none) :=
  claim_C2_amended (docOneText "say hello now") 1000 (cs "text=hello&bogus&text=zz")
    [⟨bodyTextPath, 4, bodyTextPath, 9⟩] (by rfl)

theorem rangeSetEnd_ok_end (doc : DNode) (r : JsRange) (n : Path) (o : Nat)
    (r' : JsRange) (h : rangeSetEnd doc r n o = Except.ok r') :
    r'.endC = n ∧ r'.endO = o := by
  unfold rangeSetEnd at h
  cases hres : resolve doc n with
  | none => rw [hres] at h; cases h
  | some nd =>
    rw [hres] at h
    cases nd <;> simp only at h <;>
      first
      | (cases h)
      | (split at h
         · cases h
         · split at h
           · cases h; exact ⟨rfl, rfl⟩
           · cases h; exact ⟨rfl, rfl⟩)

theorem gbpi_go_decomp (doc : DNode) (index : Nat) (isEnd : Bool) :
    ∀ (nodes : List Path) (counted : Nat) (bp : Path × Nat),
      counted ≤ index →
      getBoundaryPointAtIndex.go doc index isEnd nodes counted = some bp →
      ∃ pre post, nodes = pre ++ bp.1 :: post ∧
        counted + sumNodeLengths doc pre ≤ index ∧
        bp.2 = index - (counted + sumNodeLengths doc pre) := by
  intro nodes
  induction nodes with
  | nil =>
    intro counted bp _ h
    unfold getBoundaryPointAtIndex.go at h
    cases h
  | cons cur rest ih =>
    intro counted bp hc h
    unfold getBoundaryPointAtIndex.go at h
    by_cases hend : counted + nodeLengthAt doc cur + (if isEnd then 1 else 0) > index
    · rw [if_pos hend] at h
      cases h
      refine ⟨[], rest, rfl, ?_, ?_⟩
      · simpa [sumNodeLengths] using hc
      · simp [sumNodeLengths]
    · rw [if_neg hend] at h
      push_neg at hend
      have hc' : counted + nodeLengthAt doc cur ≤ index := by omega
      obtain ⟨pre, post, hsplit, hle, hoff⟩ :=
        ih (counted + nodeLengthAt doc cur) bp hc' h
      refine ⟨cur :: pre, post, by rw [hsplit]; rfl, ?_, ?_⟩
      · simp only [sumNodeLengths, List.map_cons, List.sum_cons]
        simp only [sumNodeLengths] at hle
        omega
      · simp only [sumNodeLengths, List.map_cons, List.sum_cons]
        simp only [sumNodeLengths] at hoff
        rw [hoff]
        congr 1
        omega

theorem findMatchLoop_ok_some (doc : DNode) (queryString searchBuffer : List Char)
    (nodes : List Path) :
    ∀ (fuel searchStart : Nat) (m : Nat) (st en : Path × Nat),
      findMatchLoop doc queryString searchBuffer nodes fuel searchStart =
        Res.ok (some (m, st, en)) →
      getBoundaryPointAtIndex doc m nodes false = some st ∧
      getBoundaryPointAtIndex doc (m + queryString.length) nodes true = some en := by
  intro fuel
  induction fuel with
  | zero =>
    intro searchStart m st en h
    cases h
  | succ fuel ih =>
    intro searchStart m st en h
    unfold findMatchLoop at h
    cases hidx : indexOfFrom (lowerStr searchBuffer) (lowerStr queryString) searchStart with
    | none => rw [hidx] at h; cases h
    | some matchIndex =>
      rw [hidx] at h
      cases hst : getBoundaryPointAtIndex doc matchIndex nodes false with
      | none => simp only [hst] at h; cases h
      | some start =>
        simp only [hst] at h
        cases hen : getBoundaryPointAtIndex doc (matchIndex + queryString.length) nodes true with
        | none => simp only [hen] at h; cases h
        | some endBp =>
          simp only [hen] at h
          cases hl1 : languageOf doc start.1 with
          | error e => simp only [hl1] at h; cases h
          | ok loc1 =>
            simp only [hl1] at h
            cases hl2 : languageOf doc endBp.1 with
            | error e => simp only [hl2] at h; cases h
            | ok loc2 =>
              simp only [hl2] at h
              by_cases hwb : ¬ isWordBounded searchBuffer matchIndex queryString.length loc1 loc2 = true
              · rw [if_pos hwb] at h
                exact ih (matchIndex + 1) m st en h
              · rw [if_neg hwb] at h
                cases h
                exact ⟨hst, hen⟩

theorem flatten_length_eq_sum (doc : DNode) :
    ∀ (nodes : List Path),
      (∀ p ∈ nodes, ∃ d, resolve doc p = some (DNode.text d)) →
      ((nodes.map (fun p => dataOfAt doc p)).flatten).length = sumNodeLengths doc nodes := by
  intro nodes
  induction nodes with
  | nil => intro _; simp [sumNodeLengths]
  | cons cur rest ih =>
    intro htext
    obtain ⟨d, hd⟩ := htext cur (List.mem_cons_self _ _)
    simp only [List.map_cons, List.flatten_cons, List.length_append, sumNodeLengths,
      List.sum_cons]
    rw [ih (fun p hp => htext p (List.mem_cons_of_mem _ hp))]
    simp only [sumNodeLengths, dataOfAt, nodeLengthAt, hd, dataOf, nodeLength]

/-- C7: find-a-range-from-a-node-list honours the search range's end
inset: when the last scanned node is the search range's end node, a
word-bounded match whose end index runs past the buffer length minus
the inset is rejected with a null result, and any returned range's end
boundary point lies in one of the scanned nodes, with its offset within
the search range's end offset whenever it lies in the last of them. -/
theorem claim_C7_end_inset (doc : DNode) (fuel : Nat) (queryString : List Char)
    (searchRange : JsRange) (nodes : List Path)
    (hlast : nodes.getLast? = some searchRange.endC)
    (hendO : searchRange.endO ≤ nodeLengthAt doc searchRange.endC)
    (htext : ∀ p ∈ nodes, ∃ d, resolve doc p = some (DNode.text d)) :
    (∀ (m : Nat) (st en : Path × Nat),
      findMatchLoop doc queryString ((nodes.map (fun p => dataOfAt doc p)).flatten) nodes
          fuel (if nodes.head? = some searchRange.startC then searchRange.startO else 0) =
        Res.ok (some (m, st, en)) →
      ((m : Int) + queryString.length >
        ((((nodes.map (fun p => dataOfAt doc p)).flatten).length : Int) -
          ((nodeLengthAt doc searchRange.endC : Int) - (searchRange.endO : Int)))) →
      findARangeFromANodeList doc fuel queryString searchRange nodes = Res.ok none)
  ∧ (∀ r : JsRange, findARangeFromANodeList doc fuel queryString searchRange nodes =
        Res.ok (some r) →
      ∃ pre post, nodes = pre ++ r.endC :: post ∧
        (post = [] → r.endO ≤ searchRange.endO)) := by
  constructor
  · intro m st en hm hgt
    unfold findARangeFromANodeList
    simp only [hm]
    rw [if_pos hlast]
    rw [if_pos hgt]
  · intro r hr
    unfold findARangeFromANodeList at hr
    cases hm : findMatchLoop doc queryString ((nodes.map (fun p => dataOfAt doc p)).flatten)
        nodes fuel (if nodes.head? = some searchRange.startC then searchRange.startO else 0) with
    | err e => simp only [hm] at hr; cases hr
    | fuelOut => simp only [hm] at hr; cases hr
    | ok res? =>
      simp only [hm] at hr
      cases res? with
      | none => cases hr
      | some tup =>
        obtain ⟨m, st, en⟩ := tup
        dsimp only at hr
        rw [if_pos hlast] at hr
        by_cases hcond : ((m : Int) + queryString.length >
            ((((nodes.map (fun p => dataOfAt doc p)).flatten).length : Int) -
              ((nodeLengthAt doc searchRange.endC : Int) - (searchRange.endO : Int))))
        · rw [if_pos hcond] at hr
          cases hr
        · rw [if_neg hcond] at hr
          cases hss : rangeSetStart doc createRange st.1 st.2 with
          | error e => simp only [hss] at hr; cases hr
          | ok r1 =>
            simp only [hss] at hr
            cases hse : rangeSetEnd doc r1 en.1 en.2 with
            | error e => simp only [hse] at hr; cases hr
            | ok result =>
              simp only [hse, Res.ok.injEq, Option.some.injEq] at hr
              subst hr
              obtain ⟨hendc, hendo⟩ := rangeSetEnd_ok_end doc r1 en.1 en.2 result hse
              obtain ⟨-, hgbe⟩ := findMatchLoop_ok_some doc queryString
                ((nodes.map (fun p => dataOfAt doc p)).flatten) nodes fuel
                (if nodes.head? = some searchRange.startC then searchRange.startO else 0)
                m st en hm
              unfold getBoundaryPointAtIndex at hgbe
              obtain ⟨pre, post, hsplit, hle, hoff⟩ :=
                gbpi_go_decomp doc (m + queryString.length) true nodes 0 en
                  (Nat.zero_le _) hgbe
              refine ⟨pre, post, by rw [← hendc] at hsplit; exact hsplit, ?_⟩
              intro hpost
              subst hpost
              have hlen : ((nodes.map (fun p => dataOfAt doc p)).flatten).length =
                  sumNodeLengths doc nodes := flatten_length_eq_sum doc nodes htext
              have hlast2 : searchRange.endC = en.1 := by
                rw [hsplit] at hlast
                rw [List.getLast?_concat] at hlast
                exact (Option.some_inj.mp hlast).symm
              have hsum : sumNodeLengths doc nodes =
                  sumNodeLengths doc pre + nodeLengthAt doc en.1 := by
                rw [hsplit]
                simp [sumNodeLengths]
              rw [hendo]
              rw [hlast2] at hendO hcond
              rw [hlen, hsum] at hcond
              simp only [Nat.zero_add] at hoff hle
              omega

/-- Witness for C7: on the one-text sample document, the accepted match
of cat against a search range ending at offset seven keeps its end
within that offset, and the same match against a search range ending at
offset five is rejected because of the inset. -/
theorem claim_C7_witness :
    (∃ pre post, [bodyTextPath] =
        pre ++ (⟨bodyTextPath, 4, bodyTextPath, 7⟩ : JsRange).endC :: post ∧
      (post = [] → (⟨bodyTextPath, 4, bodyTextPath, 7⟩ : JsRange).endO ≤
        (⟨bodyTextPath, 0, bodyTextPath, 7⟩ : JsRange).endO))
  ∧ findARangeFromANodeList (docOneText "the cat sat") 1000 (cs "cat")
      (⟨bodyTextPath, 0, bodyTextPath, 5⟩ : JsRange) [bodyTextPath] = Res.ok none :=
  ⟨(claim_C7_end_inset (docOneText "the cat sat") 1000 (cs "cat")
      ⟨bodyTextPath, 0, bodyTextPath, 7⟩ [bodyTextPath] rfl (by decide)
      (fun p hp => by
        rw [List.mem_singleton] at hp
        subst hp
        exact ⟨cs "the cat sat", rfl⟩)).2
    ⟨bodyTextPath, 4, bodyTextPath, 7⟩ (by rfl),
   (claim_C7_end_inset (docOneText "the cat sat") 1000 (cs "cat")
      ⟨bodyTextPath, 0, bodyTextPath, 5⟩ [bodyTextPath] rfl (by decide)
      (fun p hp => by
        rw [List.mem_singleton] at hp
        subst hp
        exact ⟨cs "the cat sat", rfl⟩)).1
    4 (bodyTextPath, 4) (bodyTextPath, 7) (by rfl) (by decide)⟩

theorem charFreeList_mem (c : Char) (l : List DNode) (h : charFreeList c l = true)
    (n : DNode) (hn : n ∈ l) : charFreeNode c n = true := by
  induction l with
  | nil => cases hn
  | cons a rest ih =>
    simp only [charFreeList, Bool.and_eq_true] at h
    rcases List.mem_cons.mp hn with rfl | hmem
    · exact h.1
    · exact ih h.2 hmem

theorem charFree_children (c : Char) (n : DNode) (h : charFreeNode c n = true)
    (ch : DNode) (hch : ch ∈ childrenOf n) : charFreeNode c ch = true := by
  cases n with
  | document children =>
    exact charFreeList_mem c children (by simpa [charFreeNode] using h) ch hch
  | doctype => simp [childrenOf] at hch
  | element info sh children =>
    cases sh with
    | some sc =>
      simp only [charFreeNode, Bool.and_eq_true] at h
      exact charFreeList_mem c children h.2 ch hch
    | none =>
      exact charFreeList_mem c children (by simpa [charFreeNode] using h) ch hch
  | shadowRoot children =>
    exact charFreeList_mem c children (by simpa [charFreeNode] using h) ch hch
  | text d => simp [childrenOf] at hch
  | comment d => simp [childrenOf] at hch

theorem charFree_dataOfAt (c : Char) (p : Path) :
    ∀ doc : DNode, charFreeNode c doc = true → c ∉ lowerStr (dataOfAt doc p) := by
  induction p with
  | nil =>
    intro doc h
    cases doc with
    | document ch => simp [dataOfAt, resolve, dataOf, lowerStr]
    | doctype => simp [dataOfAt, resolve, dataOf, lowerStr]
    | element i s ch => simp [dataOfAt, resolve, dataOf, lowerStr]
    | shadowRoot ch => simp [dataOfAt, resolve, dataOf, lowerStr]
    | text d =>
      simp only [charFreeNode, decide_eq_true_eq] at h
      simpa [dataOfAt, resolve, dataOf] using h
    | comment d =>
      simp only [charFreeNode, decide_eq_true_eq] at h
      simpa [dataOfAt, resolve, dataOf] using h
  | cons s rest ih =>
    intro doc h
    cases s with
    | child i =>
      cases hg : (childrenOf doc)[i]? with
      | none => simp [dataOfAt, resolve, hg, lowerStr]
      | some ch =>
        have hch : charFreeNode c ch = true :=
          charFree_children c doc h ch (List.getElem?_mem hg)
        simp only [dataOfAt, resolve, List.get?_eq_getElem?, hg]
        exact ih ch hch
    | shadow =>
      cases doc with
      | element info sh ch =>
        cases sh with
        | some sc =>
          have hsc : charFreeNode c (DNode.shadowRoot sc) = true := by
            simp only [charFreeNode, Bool.and_eq_true] at h
            simp only [charFreeNode]
            exact h.1
          simp only [dataOfAt, resolve]
          exact ih (DNode.shadowRoot sc) hsc
        | none => simp [dataOfAt, resolve, lowerStr]
      | document chl => simp [dataOfAt, resolve, lowerStr]
      | doctype => simp [dataOfAt, resolve, lowerStr]
      | shadowRoot chl => simp [dataOfAt, resolve, lowerStr]
      | text d => simp [dataOfAt, resolve, lowerStr]
      | comment d => simp [dataOfAt, resolve, lowerStr]

theorem containsSeq_mem (needle hay : List Char) (h : containsSeq needle hay) :
    ∀ c ∈ needle, c ∈ hay := by
  obtain ⟨pre, post, rfl⟩ := h
  intro c hc
  simp [List.mem_append]
  tauto

theorem charFree_no_occurrence (doc : DNode) (q : List Char) (c : Char)
    (hq : c ∈ lowerStr q) (hfree : charFreeNode c doc = true)
    (nodes : List Path) :
    ¬ containsSeq (lowerStr q) (lowerStr ((nodes.map fun p => dataOfAt doc p).flatten)) := by
  intro hocc
  have hc : c ∈ lowerStr ((nodes.map fun p => dataOfAt doc p).flatten) :=
    containsSeq_mem _ _ hocc c hq
  simp only [lowerStr, List.mem_map] at hc
  obtain ⟨x, hx, hxc⟩ := hc
  simp only [List.mem_flatten] at hx
  obtain ⟨l, hl, hxl⟩ := hx
  simp only [List.mem_map] at hl
  obtain ⟨p, hp, hpl⟩ := hl
  refine charFree_dataOfAt c p doc hfree ?_
  simp only [lowerStr, List.mem_map]
  exact ⟨x, by rw [hpl]; exact hxl, hxc⟩

theorem isPrefixOf_exists_append (needle : List Char) :
    ∀ rest : List Char, needle.isPrefixOf rest = true → ∃ t, needle ++ t = rest := by
  induction needle with
  | nil => intro rest _; exact ⟨rest, rfl⟩
  | cons a as ih =>
    intro rest h
    cases rest with
    | nil => simp [List.isPrefixOf] at h
    | cons b bs =>
      simp only [List.isPrefixOf, Bool.and_eq_true] at h
      obtain ⟨t, ht⟩ := ih bs h.2
      refine ⟨t, ?_⟩
      rw [List.cons_append, ht]
      rw [show a = b from by simpa using h.1]

theorem indexOfFrom_found (hay needle : List Char) (s m : Nat)
    (h : indexOfFrom hay needle s = some m) : containsSeq needle hay := by
  rw [indexOfFrom] at h
  have hm : m ∈ (List.range (hay.length + 1)).filter
      (fun i => min s hay.length ≤ i && needle.isPrefixOf (hay.drop i)) := by
    cases hfil : (List.range (hay.length + 1)).filter
        (fun i => min s hay.length ≤ i && needle.isPrefixOf (hay.drop i)) with
    | nil => rw [hfil] at h; simp at h
    | cons a t =>
      rw [hfil] at h
      simp only [List.head?_cons] at h
      injection h with h2
      subst h2
      exact List.mem_cons_self _ _
  have hpred := (List.mem_filter.mp hm).2
  simp only [Bool.and_eq_true, decide_eq_true_eq] at hpred
  obtain ⟨t, ht⟩ := isPrefixOf_exists_append needle (hay.drop m) hpred.2
  refine ⟨hay.take m, t, ?_⟩
  rw [List.append_assoc, ht, List.take_append_drop]

theorem findMatchLoop_found (doc : DNode) (q buf : List Char) (nodes : List Path)
    (fuel s : Nat) (x : Nat × (Path × Nat) × (Path × Nat))
    (h : findMatchLoop doc q buf nodes fuel s = Res.ok (some x)) :
    containsSeq (lowerStr q) (lowerStr buf) := by
  match fuel with
  | 0 => cases h
  | fuel + 1 =>
    rw [findMatchLoop] at h
    cases hio : indexOfFrom (lowerStr buf) (lowerStr q) s with
    | none => simp only [hio] at h; cases h
    | some m => exact indexOfFrom_found _ _ _ _ hio

theorem findARange_found (doc : DNode) (fuel : Nat) (q : List Char)
    (sr : JsRange) (nodes : List Path) (r : JsRange)
    (h : findARangeFromANodeList doc fuel q sr nodes = Res.ok (some r)) :
    containsSeq (lowerStr q) (lowerStr ((nodes.map fun p => dataOfAt doc p).flatten)) := by
  simp only [findARangeFromANodeList] at h
  cases hml : findMatchLoop doc q ((nodes.map fun p => dataOfAt doc p).flatten) nodes fuel
      (if nodes.head? = some sr.startC then sr.startO else 0) with
  | ok v =>
    cases v with
    | none => simp only [hml] at h; cases h
    | some x => exact findMatchLoop_found doc q _ nodes fuel _ x hml
  | err e => simp only [hml] at h; cases h
  | fuelOut => simp only [hml] at h; cases h

theorem collectTextNodes_visible (doc : DNode) (sr : JsRange) (ba : Option Path) :
    ∀ fuel cur acc out,
      (∀ p ∈ acc, isVisibleTextNode doc p = true) →
      collectTextNodes doc sr ba fuel cur acc = Res.ok out →
      ∀ p ∈ out.1, isVisibleTextNode doc p = true := by
  intro fuel
  induction fuel with
  | zero => intro cur acc out _ h; cases h
  | succ fuel ih =>
    intro cur acc out hacc h
    cases cur with
    | none =>
      simp only [collectTextNodes] at h
      cases h
      exact hacc
    | some c =>
      simp only [collectTextNodes] at h
      split at h
      · cases h; exact hacc
      · split at h
        · cases h
        · split at h
          · cases h; exact hacc
          · split at h
            · cases h; exact hacc
            · split at h
              · split at h
                · exact ih _ _ _ hacc h
                · cases h
                · cases h
              · by_cases hv : isVisibleTextNode doc c = true
                · rw [if_pos hv] at h
                  refine ih _ _ _ ?_ h
                  intro p hp
                  rcases List.mem_append.mp hp with hp | hp
                  · exact hacc p hp
                  · rw [List.mem_singleton] at hp
                    subst hp
                    exact hv
                · rw [if_neg hv] at h
                  exact ih _ _ _ hacc h

theorem findStringInRange_no_match (doc : DNode) (q : List Char)
    (hocc : ∀ nodes : List Path, (∀ p ∈ nodes, isVisibleTextNode doc p = true) →
      ¬ containsSeq (lowerStr q)
        (lowerStr ((nodes.map fun p => dataOfAt doc p).flatten))) :
    ∀ fuel sr out, findStringInRange doc q fuel sr = Res.ok out → out.1 = none := by
  intro fuel
  induction fuel with
  | zero => intro sr out h; cases h
  | succ fuel ih =>
    intro sr out h
    simp only [findStringInRange] at h
    split at h
    · cases h; rfl
    · split at h
      · split at h
        · split at h
          · exact ih _ _ h
          · cases h
        · cases h
        · cases h
      · split at h
        · split at h
          · split at h
            · exact ih _ _ h
            · cases h
          · cases h
          · cases h
        · cases hcol : collectTextNodes doc sr (nearestBlockAncestorOf doc sr.startC)
              fuel (some sr.startC) [] with
          | err e => simp only [hcol] at h; cases h
          | fuelOut => simp only [hcol] at h; cases h
          | ok pair =>
            obtain ⟨tnl, cf⟩ := pair
            have hvis : ∀ p ∈ tnl, isVisibleTextNode doc p = true :=
              collectTextNodes_visible doc sr _ fuel _ [] (tnl, cf)
                (by intro p hp; cases hp) hcol
            simp only [hcol] at h
            cases hfar : findARangeFromANodeList doc fuel q sr tnl with
            | err e => simp only [hfar] at h; cases h
            | fuelOut => simp only [hfar] at h; cases h
            | ok rr? =>
              cases rr? with
              | some rr =>
                exact absurd (findARange_found doc fuel q sr tnl rr hfar) (hocc tnl hvis)
              | none =>
                simp only [hfar] at h
                cases cf with
                | none =>
                  cases h
                  rfl
                | some cnode =>
                  cases hss : rangeSetStart doc sr cnode 0 with
                  | ok r2 => simp only [hss] at h; exact ih _ _ h
                  | error e => simp only [hss] at h; cases h

theorem findRangeBody_ret_none (doc : DNode) (pv : ParsedTextDirective)
    (hocc : ∀ nodes : List Path, (∀ p ∈ nodes, isVisibleTextNode doc p = true) →
      ¬ containsSeq (lowerStr pv.textStart)
        (lowerStr ((nodes.map fun p => dataOfAt doc p).flatten)))
    (fuel : Nat) (sr : JsRange) (res : Option JsRange)
    (h : findRangeBody doc pv fuel sr = Res.ok (FRStep.ret res)) : res = none := by
  rw [findRangeBody] at h
  cases hpf : pv.prefixV with
  | some prefixStr =>
    simp only [hpf] at h
    cases hfs : findStringInRange doc prefixStr fuel sr with
    | err e => simp only [hfs] at h; cases h
    | fuelOut => simp only [hfs] at h; cases h
    | ok pr =>
      obtain ⟨pm?, sr1⟩ := pr
      simp only [hfs] at h
      cases pm? with
      | none =>
        cases h
        rfl
      | some pm =>
        cases hsb : rangeSetStartBp doc sr1 (firstBoundaryPointAfter doc (getStart pm)) with
        | error e => simp only [hsb] at h; cases h
        | ok sr2 =>
          simp only [hsb] at h
          cases hm1 : rangeSetStart doc createRange pm.endC pm.endO with
          | error e => simp only [hm1] at h; cases h
          | ok m1 =>
            simp only [hm1] at h
            cases hm0 : rangeSetEnd doc m1 sr2.endC sr2.endO with
            | error e => simp only [hm0] at h; cases h
            | ok mr0 =>
              simp only [hm0] at h
              cases hadv : advanceRangeStartToNextNonWhitespacePosition doc fuel mr0 with
              | err e => simp only [hadv] at h; cases h
              | fuelOut => simp only [hadv] at h; cases h
              | ok mr1 =>
                simp only [hadv] at h
                by_cases hcl : rangeCollapsed mr1 = true
                · rw [if_pos hcl] at h
                  cases h
                  rfl
                · rw [if_neg hcl] at h
                  cases hts : findStringInRange doc pv.textStart fuel mr1 with
                  | err e => simp only [hts] at h; cases h
                  | fuelOut => simp only [hts] at h; cases h
                  | ok tp =>
                    obtain ⟨t?, mr2⟩ := tp
                    have ht1 : t? = none :=
                      findStringInRange_no_match doc pv.textStart hocc fuel mr1 (t?, mr2) hts
                    subst ht1
                    simp only [hts] at h
                    cases h
                    rfl
  | none =>
    simp only [hpf] at h
    cases hts : findStringInRange doc pv.textStart fuel sr with
    | err e => simp only [hts] at h; cases h
    | fuelOut => simp only [hts] at h; cases h
    | ok tp =>
      obtain ⟨t?, sr1⟩ := tp
      have ht1 : t? = none :=
        findStringInRange_no_match doc pv.textStart hocc fuel sr (t?, sr1) hts
      subst ht1
      simp only [hts] at h
      cases h
      rfl

theorem findRangeLoop_no_match (doc : DNode) (pv : ParsedTextDirective)
    (hocc : ∀ nodes : List Path, (∀ p ∈ nodes, isVisibleTextNode doc p = true) →
      ¬ containsSeq (lowerStr pv.textStart)
        (lowerStr ((nodes.map fun p => dataOfAt doc p).flatten))) :
    ∀ fuel sr res, findRangeLoop doc pv fuel sr = Res.ok res → res = none := by
  intro fuel
  induction fuel with
  | zero => intro sr res h; cases h
  | succ fuel ih =>
    intro sr res h
    rw [findRangeLoop] at h
    split at h
    · cases h; rfl
    · cases hb : findRangeBody doc pv fuel sr with
      | ok st =>
        cases st with
        | ret r =>
          simp only [hb] at h
          cases h
          exact findRangeBody_ret_none doc pv hocc fuel sr _ hb
        | cont sr2 =>
          simp only [hb] at h
          exact ih sr2 res h
      | err e => simp only [hb] at h; cases h
      | fuelOut => simp only [hb] at h; cases h

theorem splitOnChar_no_sep (sep : Char) (l : List Char) (h : sep ∉ l) :
    splitOnChar sep l = [l] := by
  induction l with
  | nil => rfl
  | cons c rest ih =>
    have hc : c ≠ sep := by
      intro e
      exact h (e ▸ List.mem_cons_self c rest)
    have hrest : sep ∉ rest := fun hm => h (List.mem_cons_of_mem c hm)
    have hr := ih hrest
    rw [splitOnChar] at hr ⊢
    rw [List.foldr_cons, hr]
    dsimp only
    rw [if_neg hc]

/-- C1: the no-occurrence safety claim, amended.  When the text
directive's textStart has no occurrence in the document — here: no list
of visible text nodes has the lowercased textStart inside the
concatenation of its data — find-a-range-from-a-text-directive never
returns a range (it returns null, as claimed, or raises an exception,
which the claim wrongly excludes), and processing a fragment directive
holding only that directive yields the empty list whenever it returns
at all. -/
theorem claim_C1_amended (doc : DNode) (fuel : Nat) (d : List Char)
    (pv : ParsedTextDirective)
    (hparse : parseTextDirective d = Except.ok (some pv))
    (hdir : isTextFragmentDirective d = true)
    (hamp : '&' ∉ d)
    (hocc : ∀ nodes : List Path, (∀ p ∈ nodes, isVisibleTextNode doc p = true) →
      ¬ containsSeq (lowerStr pv.textStart)
        (lowerStr ((nodes.map fun p => dataOfAt doc p).flatten))) :
    foundRange (findRangeFromTextDirective doc fuel pv) = false ∧
    emptyWhenOk (processFragmentDirective doc fuel d) = true := by
  have hfr : ∀ res, findRangeFromTextDirective doc fuel pv = Res.ok res → res = none := by
    intro res h
    rw [findRangeFromTextDirective] at h
    cases h1 : rangeSetStart doc createRange [] 0 with
    | error e => simp only [h1] at h; cases h
    | ok r1 =>
      simp only [h1] at h
      cases h2 : rangeSetEnd doc r1 [] (childrenOf doc).length with
      | error e => simp only [h2] at h; cases h
      | ok sr =>
        simp only [h2] at h
        exact findRangeLoop_no_match doc pv hocc fuel sr res h
  refine ⟨?_, ?_⟩
  · cases hv : findRangeFromTextDirective doc fuel pv with
    | ok r =>
      have hre := hfr r hv
      subst hre
      rfl
    | err e => rfl
    | fuelOut => rfl
  · rw [processFragmentDirective, splitOnChar_no_sep '&' d hamp]
    simp only [processFragmentDirective.go]
    rw [if_neg (by rw [hdir]; simp : ¬ ¬ (isTextFragmentDirective d = true))]
    rw [hparse]
    cases hv : findRangeFromTextDirective doc fuel pv with
    | err e => simp only [hv]; rfl
    | fuelOut => simp only [hv]; rfl
    | ok rr =>
      have hre := hfr rr hv
      subst hre
      simp only [hv]
      rfl

/-- Witness for C1: the letter z occurs nowhere in the one-text sample
document, so resolving text=z finds no range and processing the lone
directive text=z yields the empty list. -/
theorem claim_C1_witness :
    foundRange (findRangeFromTextDirective (docOneText "the cat sat") 100
      ⟨cs "z", none, none, none⟩) = false ∧
    emptyWhenOk (processFragmentDirective (docOneText "the cat sat") 100
      (cs "text=z")) = true :=
  claim_C1_amended (docOneText "the cat sat") 100 (cs "text=z")
    ⟨cs "z", none, none, none⟩ (by rfl) (by rfl) (by decide)
    (fun nodes _ =>
      charFree_no_occurrence (docOneText "the cat sat") (cs "z") 'z'
        (by decide) (by decide) nodes)
theorem lexLt_irrefl (l : List Nat) : lexLt l l = false := by
  induction l with
  | nil => rfl
  | cons a as ih => simp [lexLt, ih]

theorem lexLt_cons (a b : Nat) (as bs : List Nat) :
    lexLt (a :: as) (b :: bs) = true ↔ a < b ∨ (a = b ∧ lexLt as bs = true) := by
  simp only [lexLt]
  by_cases h1 : a < b
  · simp [h1]
  · by_cases h2 : b < a
    · have h3 : a ≠ b := by omega
      simp [h1, h2, h3]
    · have h3 : a = b := by omega
      simp [h1, h2, h3]

theorem lexLt_trans (a b c : List Nat) (h1 : lexLt a b = true) (h2 : lexLt b c = true) :
    lexLt a c = true := by
  induction a generalizing b c with
  | nil =>
    cases b with
    | nil => simp [lexLt] at h1
    | cons b1 bs =>
      cases c with
      | nil => simp [lexLt] at h2
      | cons c1 cs2 => rfl
  | cons a1 as ih =>
    cases b with
    | nil => simp [lexLt] at h1
    | cons b1 bs =>
      cases c with
      | nil => simp [lexLt] at h2
      | cons c1 cs2 =>
        rw [lexLt_cons] at h1 h2 ⊢
        rcases h1 with h1 | ⟨rfl, h1⟩
        · rcases h2 with h2 | ⟨rfl, h2⟩
          · exact Or.inl (lt_trans h1 h2)
          · exact Or.inl h1
        · rcases h2 with h2 | ⟨rfl, h2⟩
          · exact Or.inl h2
          · exact Or.inr ⟨rfl, ih _ _ h1 h2⟩

theorem lexLt_append_same (xs as bs : List Nat) :
    lexLt (xs ++ as) (xs ++ bs) = lexLt as bs := by
  induction xs with
  | nil => rfl
  | cons x xt ih => simp [lexLt, ih]

theorem stepEnc_pos (s : Step) : 0 < stepEnc s := by
  cases s with
  | shadow => simp [stepEnc]
  | child i => simp [stepEnc]

theorem bpKey_lt_ext (p : Path) (s : Step) (e : Path) :
    lexLt (bpKey p 0) (bpKey (p ++ s :: e) 0) = true := by
  have h1 : 0 < stepEnc s := stepEnc_pos s
  simp only [bpKey, List.map_append, List.map_cons, Nat.mul_zero, List.append_assoc,
    List.cons_append]
  rw [lexLt_append_same]
  simp [lexLt, h1]

theorem bpKey_lt_divGt (p q : Path) (h : pathDivGt p q) (o1 o2 : Nat) :
    lexLt (bpKey p o1) (bpKey q o2) = true := by
  obtain ⟨pre, a, b, p2, q2, hp, hq, hab⟩ := h
  subst hp
  subst hq
  simp only [bpKey, List.map_append, List.map_cons, List.append_assoc, List.cons_append]
  rw [lexLt_append_same]
  simp [lexLt, hab]

theorem bpKey_lt_offset (p : Path) (o1 o2 : Nat) (h : o1 < o2) :
    lexLt (bpKey p o1) (bpKey p o2) = true := by
  simp only [bpKey]
  rw [lexLt_append_same]
  have h3 : 3 * o1 < 3 * o2 := by omega
  simp [lexLt, h3]

theorem getLast?_decomp {α : Type} (l : List α) (a : α) (h : l.getLast? = some a) :
    l = l.dropLast ++ [a] := by
  cases l with
  | nil => cases h
  | cons x xs =>
    have hne : x :: xs ≠ [] := by simp
    rw [List.getLast?_eq_getLast _ hne] at h
    injection h with h2
    rw [← h2]
    exact (List.dropLast_append_getLast hne).symm

theorem climbNext_go_divGt (doc : DNode) (root : Path) (p : Path) :
    ∀ bound q tail res, p = q ++ tail →
      climbNext.go doc root bound q = some res → pathDivGt p res := by
  intro bound
  induction bound with
  | zero => intro q tail res _ h; cases h
  | succ bound ih =>
    intro q tail res hpq h
    rw [climbNext.go] at h
    split at h
    · cases h
    · cases hl : q.getLast? with
      | none => simp only [hl] at h; cases h
      | some s =>
        cases s with
        | shadow => simp only [hl] at h; cases h
        | child i =>
          simp only [hl] at h
          cases hr : resolve doc q.dropLast with
          | none => simp only [hr] at h; cases h
          | some parentN =>
            simp only [hr] at h
            by_cases hlt : i + 1 < (childrenOf parentN).length
            · rw [if_pos hlt] at h
              injection h with h2
              refine ⟨q.dropLast, Step.child i, Step.child (i + 1), tail, [], ?_, h2.symm, ?_⟩
              · rw [hpq]
                conv_lhs => rw [getLast?_decomp q (Step.child i) hl]
                rw [List.append_assoc, List.singleton_append]
              · simp [stepEnc]
            · rw [if_neg hlt] at h
              refine ih q.dropLast (Step.child i :: tail) res ?_ h
              rw [hpq]
              conv_lhs => rw [getLast?_decomp q (Step.child i) hl]
              rw [List.append_assoc, List.singleton_append]

theorem climbNext_divGt (doc : DNode) (root p res : Path)
    (h : climbNext doc root p = some res) : pathDivGt p res := by
  rw [climbNext] at h
  exact climbNext_go_divGt doc root p (p.length + 1) p [] res (by simp) h

theorem nextNodePlain_after (doc : DNode) (p q : Path)
    (h : nextNodePlain doc p = some q) :
    (∃ s e, q = p ++ s :: e) ∨ pathDivGt p q := by
  rw [nextNodePlain] at h
  cases hr : resolve doc p with
  | none => simp only [hr] at h; cases h
  | some n =>
    simp only [hr] at h
    by_cases hc : 0 < (childrenOf n).length
    · rw [if_pos hc] at h
      injection h with h2
      exact Or.inl ⟨Step.child 0, [], h2.symm⟩
    · rw [if_neg hc] at h
      exact Or.inr (climbNext_divGt doc (rootPath p) p q h)

theorem nextNodePlain_text_divGt (doc : DNode) (p q : Path) (d : List Char)
    (hres : resolve doc p = some (DNode.text d))
    (h : nextNodePlain doc p = some q) : pathDivGt p q := by
  rw [nextNodePlain] at h
  simp only [hres] at h
  rw [if_neg (by simp [childrenOf])] at h
  exact climbNext_divGt doc (rootPath p) p q h

theorem rootPath_shadow_append (p : Path) :
    rootPath (p ++ [Step.shadow]) = p ++ [Step.shadow] := by
  simp [rootPath, List.reverse_append, List.dropWhile, isChildStep]

theorem nextNodeSI_after (doc : DNode) (p q : Path)
    (h : nextNodeInShadowIncludingTreeOrder doc p = some q) :
    (∃ s e, q = p ++ s :: e) ∨ pathDivGt p q := by
  rw [nextNodeInShadowIncludingTreeOrder] at h
  by_cases hh : isShadowHost doc p = true
  · rw [if_pos hh] at h
    rw [nextNodePlain] at h
    cases hr : resolve doc (p ++ [Step.shadow]) with
    | none => simp only [hr] at h; cases h
    | some n =>
      simp only [hr] at h
      by_cases hc : 0 < (childrenOf n).length
      · rw [if_pos hc] at h
        injection h with h2
        refine Or.inl ⟨Step.shadow, [Step.child 0], ?_⟩
        rw [← h2, List.append_assoc, List.singleton_append]
      · rw [if_neg hc, climbNext] at h
        rw [rootPath_shadow_append] at h
        rw [climbNext.go] at h
        rw [if_pos rfl] at h
        cases h
  · rw [if_neg hh] at h
    exact nextNodePlain_after doc p q h

theorem nextNodeSI_text_divGt (doc : DNode) (p q : Path) (d : List Char)
    (hres : resolve doc p = some (DNode.text d))
    (h : nextNodeInShadowIncludingTreeOrder doc p = some q) : pathDivGt p q := by
  rw [nextNodeInShadowIncludingTreeOrder] at h
  rw [if_neg (show ¬ (isShadowHost doc p = true) by simp [isShadowHost, hres])] at h
  exact nextNodePlain_text_divGt doc p q d hres h

theorem after_keyLt0 (p q : Path)
    (h : (∃ s e, q = p ++ s :: e) ∨ pathDivGt p q) :
    lexLt (bpKey p 0) (bpKey q 0) = true := by
  rcases h with ⟨s, e, rfl⟩ | h
  · exact bpKey_lt_ext p s e
  · exact bpKey_lt_divGt p q h 0 0

theorem nnsidLoop_keyLt (doc : DNode) (node : Path) :
    ∀ fuel cur q, lexLt (bpKey node 0) (bpKey cur 0) = true →
      nnsidLoop doc node fuel (some cur) = Res.ok (some q) →
      lexLt (bpKey node 0) (bpKey q 0) = true := by
  intro fuel
  induction fuel with
  | zero => intro cur q _ h; cases h
  | succ fuel ih =>
    intro cur q hlt h
    simp only [nnsidLoop] at h
    split at h
    · cases hnx : nextNodeInShadowIncludingTreeOrder doc cur with
      | none =>
        rw [hnx] at h
        cases fuel with
        | zero => simp only [nnsidLoop] at h; cases h
        | succ f2 => simp only [nnsidLoop] at h; cases h
      | some c2 =>
        rw [hnx] at h
        exact ih c2 q
          (lexLt_trans _ _ _ hlt (after_keyLt0 cur c2 (nextNodeSI_after doc cur c2 hnx))) h
    · cases h
      exact hlt

theorem nnsid_keyLt (doc : DNode) (fuel : Nat) (node q : Path)
    (h : nextNodeNotInShadowIncludingDescendantOf doc fuel node = Res.ok (some q)) :
    lexLt (bpKey node 0) (bpKey q 0) = true := by
  rw [nextNodeNotInShadowIncludingDescendantOf] at h
  cases hnx : nextNodeInShadowIncludingTreeOrder doc node with
  | none =>
    rw [hnx] at h
    cases fuel with
    | zero => simp only [nnsidLoop] at h; cases h
    | succ f2 => simp only [nnsidLoop] at h; cases h
  | some c1 =>
    rw [hnx] at h
    exact nnsidLoop_keyLt doc node fuel c1 q
      (after_keyLt0 node c1 (nextNodeSI_after doc node c1 hnx)) h

theorem rangeSetStart_fields (doc : DNode) (r : JsRange) (node : Path) (offset : Nat)
    (r' : JsRange) (h : rangeSetStart doc r node offset = Except.ok r') :
    r'.startC = node ∧ r'.startO = offset ∧
      ((r'.endC = r.endC ∧ r'.endO = r.endO) ∨ (r'.endC = node ∧ r'.endO = offset)) := by
  rw [rangeSetStart] at h
  cases hr : resolve doc node with
  | none => simp only [hr] at h; cases h
  | some n =>
    simp only [hr] at h
    cases n
    case doctype => simp at h
    all_goals
      dsimp only at h
      split at h
      · cases h
      · split at h
        · cases h
          exact ⟨rfl, rfl, Or.inr ⟨rfl, rfl⟩⟩
        · cases h
          exact ⟨rfl, rfl, Or.inl ⟨rfl, rfl⟩⟩

theorem rangeSetStart_collapse (doc : DNode) (r : JsRange) (node : Path) (offset : Nat)
    (r' : JsRange) (h : rangeSetStart doc r node offset = Except.ok r')
    (hb : bpBefore r.endC r.endO node offset = true) :
    r' = ⟨node, offset, node, offset⟩ := by
  rw [rangeSetStart] at h
  cases hr : resolve doc node with
  | none => simp only [hr] at h; cases h
  | some n =>
    simp only [hr] at h
    cases n
    case doctype => simp at h
    all_goals
      dsimp only at h
      split at h
      · cases h
      · rw [if_pos (Or.inr hb)] at h
        cases h
        rfl

theorem visText_resolve (doc : DNode) (p : Path) (h : isVisibleTextNode doc p = true) :
    ∃ d, resolve doc p = some (DNode.text d) := by
  rw [isVisibleTextNode] at h
  cases hr : resolve doc p with
  | none => rw [hr] at h; simp at h
  | some n =>
    rw [hr] at h
    cases n with
    | text d => exact ⟨d, rfl⟩
    | document ch => simp at h
    | doctype => simp at h
    | element i s ch => simp at h
    | shadowRoot ch => simp at h
    | comment d2 => simp at h

theorem advanceConsume_advances (doc : DNode) (range : JsRange) (node : Path)
    (newOffset : Nat) (d : List Char)
    (hnode : node = range.startC)
    (hres : resolve doc node = some (DNode.text d))
    (hvt : isVisibleTextNode doc node = true)
    (hns : partOfNonSearchableSubtree doc node = false)
    (hgt : range.startO < newOffset)
    (out : StepOut)
    (h : advanceStep.advanceConsume doc range node newOffset = Res.ok out) :
    (∀ r1, out = StepOut.ret r1 → r1 = range) ∧
    (∀ r1, out = StepOut.cont r1 →
      lexLt (bpKey range.startC range.startO) (bpKey r1.startC r1.startO) = true ∧
      (r1.startO = 0 ∨ (isVisibleTextNode doc r1.startC = true ∧
        partOfNonSearchableSubtree doc r1.startC = false)) ∧
      ((r1.endC = range.endC ∧ r1.endO = range.endO) ∨
        (r1.endC = r1.startC ∧ r1.endO = r1.startO))) := by
  rw [advanceStep.advanceConsume] at h
  cases hset : rangeSetStart doc range node newOffset with
  | error e => simp only [hset] at h; cases h
  | ok r1 =>
    simp only [hset] at h
    obtain ⟨hs1, hs2, hend⟩ := rangeSetStart_fields doc range node newOffset r1 hset
    by_cases hlen : r1.startO = nodeLengthAt doc node
    · rw [if_pos hlen] at h
      cases hnx : nextNodeInShadowIncludingTreeOrder doc node with
      | none => simp only [hnx, rangeSetStartOpt] at h; cases h
      | some q =>
        simp only [hnx, rangeSetStartOpt] at h
        have hdiv : pathDivGt node q := nextNodeSI_text_divGt doc node q d hres hnx
        cases hset2 : rangeSetStart doc r1 q 0 with
        | error e => simp only [hset2] at h; cases h
        | ok r2 =>
          simp only [hset2] at h
          cases h
          obtain ⟨ht1, ht2, hend2⟩ := rangeSetStart_fields doc r1 q 0 r2 hset2
          refine ⟨fun r3 heq => (nomatch heq), fun r3 heq => ?_⟩
          cases heq
          refine ⟨?_, Or.inl ht2, ?_⟩
          · rw [ht1, ht2, ← hnode]
            exact bpKey_lt_divGt node q hdiv range.startO 0
          · rcases hend2 with he2 | he2
            · rcases hend with he | he
              · exact Or.inl ⟨he2.1.trans he.1, he2.2.trans he.2⟩
              · have hb : bpBefore r1.endC r1.endO q 0 = true := by
                  rw [bpBefore, he.1, he.2]
                  exact bpKey_lt_divGt node q hdiv newOffset 0
                have hcol := rangeSetStart_collapse doc r1 q 0 r2 hset2 hb
                rw [hcol]
                exact Or.inr ⟨rfl, rfl⟩
            · exact Or.inr ⟨he2.1.trans ht1.symm, he2.2.trans ht2.symm⟩
    · rw [if_neg hlen] at h
      cases h
      refine ⟨fun r3 heq => (nomatch heq), fun r3 heq => ?_⟩
      cases heq
      refine ⟨?_, ?_, ?_⟩
      · rw [hs1, hs2, ← hnode]
        exact bpKey_lt_offset node range.startO newOffset hgt
      · refine Or.inr ?_
        rw [hs1]
        exact ⟨hvt, hns⟩
      · rcases hend with he | he
        · exact Or.inl he
        · exact Or.inr ⟨he.1.trans hs1.symm, he.2.trans hs2.symm⟩

theorem advanceStep_advances (doc : DNode) (fuel : Nat) (range : JsRange)
    (hinv : range.startO = 0 ∨ (isVisibleTextNode doc range.startC = true ∧
      partOfNonSearchableSubtree doc range.startC = false))
    (out : StepOut) (h : advanceStep doc fuel range = Res.ok out) :
    (∀ r1, out = StepOut.ret r1 → r1 = range) ∧
    (∀ r1, out = StepOut.cont r1 →
      lexLt (bpKey range.startC range.startO) (bpKey r1.startC r1.startO) = true ∧
      (r1.startO = 0 ∨ (isVisibleTextNode doc r1.startC = true ∧
        partOfNonSearchableSubtree doc r1.startC = false)) ∧
      ((r1.endC = range.endC ∧ r1.endO = range.endO) ∨
        (r1.endC = r1.startC ∧ r1.endO = r1.startO))) := by
  simp only [advanceStep] at h
  by_cases hns : partOfNonSearchableSubtree doc range.startC = true
  · rw [if_pos hns] at h
    have h0 : range.startO = 0 := by
      rcases hinv with h0 | ⟨_, hns2⟩
      · exact h0
      · rw [hns] at hns2; cases hns2
    cases hnn : nextNodeNotInShadowIncludingDescendantOf doc fuel range.startC with
    | err e => simp only [hnn] at h; cases h
    | fuelOut => simp only [hnn] at h; cases h
    | ok next? =>
      simp only [hnn] at h
      cases next? with
      | none => simp only [rangeSetStartOpt] at h; cases h
      | some q =>
        simp only [rangeSetStartOpt] at h
        cases hset : rangeSetStart doc range q 0 with
        | error e => simp only [hset] at h; cases h
        | ok r1 =>
          simp only [hset] at h
          cases h
          obtain ⟨hs1, hs2, hend⟩ := rangeSetStart_fields doc range q 0 r1 hset
          refine ⟨fun r2 heq => (nomatch heq), fun r2 heq => ?_⟩
          cases heq
          refine ⟨?_, Or.inl hs2, ?_⟩
          · rw [h0, hs1, hs2]
            exact nnsid_keyLt doc fuel range.startC q hnn
          · rcases hend with he | he
            · exact Or.inl he
            · exact Or.inr ⟨he.1.trans hs1.symm, he.2.trans hs2.symm⟩
  · rw [if_neg hns] at h
    by_cases hvt : isVisibleTextNode doc range.startC = true
    · rw [if_neg (not_not_intro hvt)] at h
      obtain ⟨d, hres⟩ := visText_resolve doc range.startC hvt
      have hns2 : partOfNonSearchableSubtree doc range.startC = false := by
        simpa using hns
      cases hs6 : substringData doc range.startC range.startO 6 with
      | error e => simp only [hs6] at h; cases h
      | ok s6 =>
        simp only [hs6] at h
        by_cases h6 : s6 = cs "&nbsp;"
        · rw [if_pos h6] at h
          exact advanceConsume_advances doc range range.startC (range.startO + 6) d rfl
            hres hvt hns2 (by omega) out h
        · rw [if_neg h6] at h
          cases hs5 : substringData doc range.startC range.startO 5 with
          | error e => simp only [hs5] at h; cases h
          | ok s5 =>
            simp only [hs5] at h
            by_cases h5 : s5 = cs "&nbsp"
            · rw [if_pos h5] at h
              exact advanceConsume_advances doc range range.startC (range.startO + 5) d rfl
                hres hvt hns2 (by omega) out h
            · rw [if_neg h5] at h
              cases hg : (dataOfAt doc range.startC).get? range.startO with
              | none =>
                simp only [hg] at h
                cases h
                exact ⟨fun r2 heq => (StepOut.ret.inj heq).symm, fun r2 heq => nomatch heq⟩
              | some ch =>
                simp only [hg] at h
                by_cases hw : hasWhiteSpaceProperty ch.toNat = true
                · rw [if_pos hw] at h
                  exact advanceConsume_advances doc range range.startC (range.startO + 1) d rfl
                    hres hvt hns2 (by omega) out h
                · rw [if_neg hw] at h
                  cases h
                  exact ⟨fun r2 heq => (StepOut.ret.inj heq).symm, fun r2 heq => nomatch heq⟩
    · rw [if_pos hvt] at h
      have h0 : range.startO = 0 := by
        rcases hinv with h0 | ⟨hvt2, _⟩
        · exact h0
        · exact absurd hvt2 hvt
      cases hnx : nextNodeInShadowIncludingTreeOrder doc range.startC with
      | none => simp only [hnx, rangeSetStartOpt] at h; cases h
      | some q =>
        simp only [hnx, rangeSetStartOpt] at h
        cases hset : rangeSetStart doc range q 0 with
        | error e => simp only [hset] at h; cases h
        | ok r1 =>
          simp only [hset] at h
          cases h
          obtain ⟨hs1, hs2, hend⟩ := rangeSetStart_fields doc range q 0 r1 hset
          refine ⟨fun r2 heq => (nomatch heq), fun r2 heq => ?_⟩
          cases heq
          refine ⟨?_, Or.inl hs2, ?_⟩
          · rw [h0, hs1, hs2]
            exact after_keyLt0 range.startC q (nextNodeSI_after doc range.startC q hnx)
          · rcases hend with he | he
            · exact Or.inl he
            · exact Or.inr ⟨he.1.trans hs1.symm, he.2.trans hs2.symm⟩

/-- C10: the advance-to-next-non-whitespace frame claim, amended.  The
claim is false as stated — from a start at an element with a positive
offset the procedure moves the range's start backwards to the first
child, and an overshooting whitespace unit can collapse the range past
its end — but under the invariant that the start offset is zero or the
start node is a visible text node outside non-searchable subtrees, a
successful run never moves the start backwards in boundary-point order,
and the end boundary point is unchanged unless the advanced start
overtook it, in which case the resulting range is collapsed onto its
start. -/
theorem claim_C10_amended (doc : DNode) (fuel : Nat) :
    ∀ range r' : JsRange,
      (range.startO = 0 ∨ (isVisibleTextNode doc range.startC = true ∧
        partOfNonSearchableSubtree doc range.startC = false)) →
      advanceRangeStartToNextNonWhitespacePosition doc fuel range = Res.ok r' →
      bpBefore r'.startC r'.startO range.startC range.startO = false ∧
      ((r'.endC = range.endC ∧ r'.endO = range.endO) ∨
        (r'.startC = r'.endC ∧ r'.startO = r'.endO)) := by
  induction fuel with
  | zero => intro range r' _ h; cases h
  | succ fuel ih =>
    intro range r' hinv h
    rw [advanceRangeStartToNextNonWhitespacePosition] at h
    split at h
    · cases h
      exact ⟨by simp [bpBefore, lexLt_irrefl], Or.inl ⟨rfl, rfl⟩⟩
    · cases hstep : advanceStep doc fuel range with
      | err e => simp only [hstep] at h; cases h
      | fuelOut => simp only [hstep] at h; cases h
      | ok out =>
        have hadv := advanceStep_advances doc fuel range hinv out hstep
        cases out with
        | ret r1 =>
          simp only [hstep] at h
          cases h
          have hr1 := hadv.1 r' rfl
          subst hr1
          exact ⟨by simp [bpBefore, lexLt_irrefl], Or.inl ⟨rfl, rfl⟩⟩
        | cont r1 =>
          simp only [hstep] at h
          obtain ⟨hlt, hinv1, hend1⟩ := hadv.2 r1 rfl
          rcases hend1 with hend1 | hend1
          · obtain ⟨hb, he⟩ := ih r1 r' hinv1 h
            constructor
            · by_contra hcon
              rw [Bool.not_eq_false] at hcon
              simp only [bpBefore] at hb hcon
              have h2 := lexLt_trans _ _ _ hcon hlt
              have h3 := h2.symm.trans hb
              cases h3
            · rcases he with ⟨e1, e2⟩ | hcol
              · exact Or.inl ⟨e1.trans hend1.1, e2.trans hend1.2⟩
              · exact Or.inr hcol
          · have hcol : rangeCollapsed r1 = true := by
              simp [rangeCollapsed, hend1.1, hend1.2]
            cases fuel with
            | zero => cases h
            | succ f2 =>
              rw [advanceRangeStartToNextNonWhitespacePosition] at h
              rw [if_pos hcol] at h
              cases h
              constructor
              · by_contra hcon
                rw [Bool.not_eq_false] at hcon
                simp only [bpBefore] at hcon
                have h2 := lexLt_trans _ _ _ hcon hlt
                rw [lexLt_irrefl] at h2
                cases h2
              · exact Or.inr ⟨hend1.1.symm, hend1.2.symm⟩

/-- Witness for C10: skipping the two leading spaces of the one-text
sample document advances the range's start from offset zero to offset
two and leaves the end untouched. -/
theorem claim_C10_witness :
    bpBefore bodyTextPath 2 bodyTextPath 0 = false ∧
    ((bodyTextPath = bodyTextPath ∧ 3 = 3) ∨ (bodyTextPath = bodyTextPath ∧ 2 = 3)) :=
  claim_C10_amended (docOneText "  x") 10 ⟨bodyTextPath, 0, bodyTextPath, 3⟩
    ⟨bodyTextPath, 2, bodyTextPath, 3⟩ (Or.inl rfl) (by rfl)
theorem fbpa_strict (doc : DNode) (bp bp2 : Path × Nat)
    (h : firstBoundaryPointAfter doc bp = some bp2)
    (d : List Char) (hres : resolve doc bp.1 = some (DNode.text d)) :
    lexLt (bpKey bp.1 bp.2) (bpKey bp2.1 bp2.2) = true := by
  rw [firstBoundaryPointAfter] at h
  split at h
  · injection h with h2
    subst h2
    exact bpKey_lt_offset bp.1 bp.2 (bp.2 + 1) (by omega)
  · cases hnx : nextNodePlain doc bp.1 with
    | none => rw [hnx] at h; cases h
    | some nxt =>
      rw [hnx] at h
      injection h with h2
      subst h2
      exact bpKey_lt_divGt bp.1 nxt (nextNodePlain_text_divGt doc bp.1 nxt d hres hnx) bp.2 0

theorem findRangeSuffixPart_cont (doc : DNode) (pv : ParsedTextDirective) (fuel : Nat)
    (pm sr2 sr' : JsRange)
    (h : findRangeSuffixPart doc pv fuel pm sr2 = Res.ok (FRStep.cont sr')) :
    sr' = sr2 := by
  rw [findRangeSuffixPart] at h
  split at h
  · cases h
  · split at h
    · cases h
    · split at h
      · cases h
      · split at h
        · cases h
        · cases h
        · split at h
          · cases h
          · cases h
          · split at h
            · cases h
            · split at h
              · cases h
              · cases h
                rfl

/-- C6 (counterexample): the outer loop of
find-a-range-from-a-text-directive does not always end by returning a
Range or null — with a prefix match at the very end of the text, the
whitespace advance runs off the tree, dereferences null and raises
TypeError. -/
theorem claim_C6_counterexample :
    findRangeFromTextDirective (docOneText "x ") 1000
      ⟨cs "y", none, some (cs "x"), none⟩ = Res.err JsError.typeError := rfl

theorem lexLt_asymm (a b : List Nat) (h : lexLt a b = true) : lexLt b a = false := by
  by_contra hcon
  rw [Bool.not_eq_false] at hcon
  have h2 := lexLt_trans a b a h hcon
  rw [lexLt_irrefl] at h2
  cases h2

theorem lexLt_of_lt_of_keyLe (k1 k2 k3 : List Nat) (h1 : lexLt k1 k2 = true)
    (h2 : keyLe k2 k3) : lexLt k1 k3 = true := by
  rcases h2 with h2 | rfl
  · exact lexLt_trans _ _ _ h1 h2
  · exact h1

theorem lexLt_of_keyLe_of_lt (k1 k2 k3 : List Nat) (h1 : keyLe k1 k2)
    (h2 : lexLt k2 k3 = true) : lexLt k1 k3 = true := by
  rcases h1 with h1 | rfl
  · exact lexLt_trans _ _ _ h1 h2
  · exact h2

theorem keyLe_offset (p : Path) (o1 o2 : Nat) (h : o1 ≤ o2) :
    keyLe (bpKey p o1) (bpKey p o2) := by
  rcases Nat.lt_or_ge o1 o2 with h2 | h2
  · exact Or.inl (bpKey_lt_offset p o1 o2 h2)
  · have h3 : o1 = o2 := by omega
    subst h3
    exact Or.inr rfl

theorem bpBefore_false_of_keyLe (p1 : Path) (o1 : Nat) (p2 : Path) (o2 : Nat)
    (h : keyLe (bpKey p1 o1) (bpKey p2 o2)) : bpBefore p2 o2 p1 o1 = false := by
  rcases h with h | h
  · exact lexLt_asymm _ _ h
  · rw [bpBefore, ← h]
    exact lexLt_irrefl _

theorem indexOfFrom_ge (hay needle : List Char) (s m : Nat)
    (h : indexOfFrom hay needle s = some m) : min s hay.length ≤ m := by
  rw [indexOfFrom] at h
  have hm : m ∈ (List.range (hay.length + 1)).filter
      (fun i => min s hay.length ≤ i && needle.isPrefixOf (hay.drop i)) := by
    cases hfil : (List.range (hay.length + 1)).filter
        (fun i => min s hay.length ≤ i && needle.isPrefixOf (hay.drop i)) with
    | nil => rw [hfil] at h; simp at h
    | cons a t =>
      rw [hfil] at h
      simp only [List.head?_cons] at h
      injection h with h2
      subst h2
      exact List.mem_cons_self _ _
  have hpred := (List.mem_filter.mp hm).2
  simp only [Bool.and_eq_true, decide_eq_true_eq] at hpred
  exact hpred.1

theorem length_lowerStr (s : List Char) : (lowerStr s).length = s.length := by
  simp [lowerStr]

theorem nodeLengthAt_text (doc : DNode) (p : Path) (d : List Char)
    (h : resolve doc p = some (DNode.text d)) : nodeLengthAt doc p = d.length := by
  simp [nodeLengthAt, h, nodeLength]

theorem dataOfAt_text (doc : DNode) (p : Path) (d : List Char)
    (h : resolve doc p = some (DNode.text d)) : dataOfAt doc p = d := by
  simp [dataOfAt, h, dataOf]

theorem hasBlockLevelDisplayAt_text (doc : DNode) (p : Path) (d : List Char)
    (h : resolve doc p = some (DNode.text d)) :
    hasBlockLevelDisplayAt doc p = false := by
  simp [hasBlockLevelDisplayAt, h, hasBlockLevelDisplay]

theorem isSearchInvisibleAt_text (doc : DNode) (p : Path) (d : List Char)
    (h : resolve doc p = some (DNode.text d)) :
    isSearchInvisibleAt doc p = false := by
  simp [isSearchInvisibleAt, h, isSearchInvisible]

theorem move_keyLt (doc : DNode) (c : Path) (o : Nat)
    (hinv : o = 0 ∨ ∃ d, resolve doc c = some (DNode.text d))
    (n : Path) (h : nextNodeInShadowIncludingTreeOrder doc c = some n) :
    lexLt (bpKey c o) (bpKey n 0) = true := by
  rcases hinv with rfl | ⟨d, hres⟩
  · exact after_keyLt0 c n (nextNodeSI_after doc c n h)
  · exact bpKey_lt_divGt c n (nextNodeSI_text_divGt doc c n d hres h) o 0

theorem nnsidLoop_keyLtK (doc : DNode) (node : Path) (k : List Nat) :
    ∀ fuel cur q, lexLt k (bpKey cur 0) = true →
      nnsidLoop doc node fuel (some cur) = Res.ok (some q) →
      lexLt k (bpKey q 0) = true := by
  intro fuel
  induction fuel with
  | zero => intro cur q _ h; cases h
  | succ fuel ih =>
    intro cur q hlt h
    simp only [nnsidLoop] at h
    split at h
    · cases hnx : nextNodeInShadowIncludingTreeOrder doc cur with
      | none =>
        rw [hnx] at h
        cases fuel with
        | zero => simp only [nnsidLoop] at h; cases h
        | succ f2 => simp only [nnsidLoop] at h; cases h
      | some c2 =>
        rw [hnx] at h
        exact ih c2 q
          (lexLt_trans _ _ _ hlt (after_keyLt0 cur c2 (nextNodeSI_after doc cur c2 hnx))) h
    · cases h
      exact hlt

theorem nnsid_from (doc : DNode) (fuel : Nat) (c : Path) (o : Nat)
    (hinv : o = 0 ∨ ∃ d, resolve doc c = some (DNode.text d))
    (q : Path)
    (h : nextNodeNotInShadowIncludingDescendantOf doc fuel c = Res.ok (some q)) :
    lexLt (bpKey c o) (bpKey q 0) = true := by
  rw [nextNodeNotInShadowIncludingDescendantOf] at h
  cases hnx : nextNodeInShadowIncludingTreeOrder doc c with
  | none =>
    rw [hnx] at h
    cases fuel with
    | zero => simp only [nnsidLoop] at h; cases h
    | succ f2 => simp only [nnsidLoop] at h; cases h
  | some c1 =>
    rw [hnx] at h
    exact nnsidLoop_keyLtK doc c (bpKey c o) fuel c1 q (move_keyLt doc c o hinv c1 hnx) h

theorem skipDoctypes_keyLtK (doc : DNode) (k : List Nat) :
    ∀ fuel cur q, lexLt k (bpKey cur 0) = true →
      skipDoctypes doc fuel (some cur) = Res.ok (some q) →
      lexLt k (bpKey q 0) = true := by
  intro fuel
  induction fuel with
  | zero => intro cur q _ h; cases h
  | succ fuel ih =>
    intro cur q hlt h
    simp only [skipDoctypes] at h
    split at h
    · cases hnx : nextNodeInShadowIncludingTreeOrder doc cur with
      | none =>
        rw [hnx] at h
        cases fuel with
        | zero => simp only [skipDoctypes] at h; cases h
        | succ f2 => simp only [skipDoctypes] at h; cases h
      | some c2 =>
        rw [hnx] at h
        exact ih c2 q
          (lexLt_trans _ _ _ hlt (after_keyLt0 cur c2 (nextNodeSI_after doc cur c2 hnx))) h
    · cases h
      exact hlt

theorem rangeSetEnd_fields (doc : DNode) (r : JsRange) (node : Path) (offset : Nat)
    (r' : JsRange) (h : rangeSetEnd doc r node offset = Except.ok r') :
    r'.endC = node ∧ r'.endO = offset ∧
      ((r'.startC = r.startC ∧ r'.startO = r.startO) ∨
        (r'.startC = node ∧ r'.startO = offset)) := by
  rw [rangeSetEnd] at h
  cases hr : resolve doc node with
  | none => simp only [hr] at h; cases h
  | some n =>
    simp only [hr] at h
    cases n
    case doctype => simp at h
    all_goals
      dsimp only at h
      split at h
      · cases h
      · split at h
        · cases h
          exact ⟨rfl, rfl, Or.inr ⟨rfl, rfl⟩⟩
        · cases h
          exact ⟨rfl, rfl, Or.inl ⟨rfl, rfl⟩⟩

theorem rangeComparePoint_one (doc : DNode) (r : JsRange) (node : Path) (offset : Nat)
    (h : rangeComparePoint doc r node offset = Except.ok 1) :
    bpBefore r.endC r.endO node offset = true := by
  rw [rangeComparePoint] at h
  cases hr : resolve doc node with
  | none => simp only [hr] at h; cases h
  | some n =>
    simp only [hr] at h
    split at h
    · cases h
    · split at h
      · cases h
      · split at h
        · cases h
        · split at h
          · simp at h
          · split at h
            · assumption
            · simp at h

theorem fbpa_inv (doc : DNode) (bp bp2 : Path × Nat)
    (h : firstBoundaryPointAfter doc bp = some bp2)
    (d : List Char) (hres : resolve doc bp.1 = some (DNode.text d)) :
    (bp2.2 = 0 ∨ ∃ d2, resolve doc bp2.1 = some (DNode.text d2)) ∧
      bp2.2 ≤ nodeLengthAt doc bp2.1 := by
  rw [firstBoundaryPointAfter] at h
  split at h
  · injection h with h2
    subst h2
    refine ⟨Or.inr ⟨d, hres⟩, ?_⟩
    show bp.2 + 1 ≤ nodeLengthAt doc bp.1
    omega
  · cases hnx : nextNodePlain doc bp.1 with
    | none => rw [hnx] at h; cases h
    | some nxt =>
      rw [hnx] at h
      injection h with h2
      subst h2
      exact ⟨Or.inl rfl, Nat.zero_le _⟩
theorem collect_chain (doc : DNode) (sr : JsRange) (ba : Option Path) (k : List Nat) :
    ∀ fuel cur acc out,
      (∀ c, cur = some c → lexLt k (bpKey c 0) = true) →
      collectTextNodes doc sr ba fuel cur acc = Res.ok out →
      (∃ added, out.1 = acc ++ added ∧ ∀ n ∈ added, lexLt k (bpKey n 0) = true) ∧
      (∀ c, out.2 = some c → lexLt k (bpKey c 0) = true) := by
  intro fuel
  induction fuel with
  | zero => intro cur acc out _ h; cases h
  | succ fuel ih =>
    intro cur acc out hqc h
    cases cur with
    | none =>
      simp only [collectTextNodes] at h
      cases h
      refine ⟨⟨[], by simp, ?_⟩, ?_⟩
      · intro n hn
        simp at hn
      · intro c hc
        cases hc
    | some c =>
      have hq1 := hqc c rfl
      simp only [collectTextNodes] at h
      split at h
      · cases h
        refine ⟨⟨[], by simp, ?_⟩, ?_⟩
        · intro n hn
          simp at hn
        · intro c' hc'
          injection hc' with h3
          subst h3
          exact hq1
      · split at h
        · cases h
        · split at h
          · cases h
            refine ⟨⟨[], by simp, ?_⟩, ?_⟩
            · intro n hn
              simp at hn
            · intro c' hc'
              injection hc' with h3
              subst h3
              exact hq1
          · split at h
            · cases h
              refine ⟨⟨[], by simp, ?_⟩, ?_⟩
              · intro n hn
                simp at hn
              · intro c' hc'
                injection hc' with h3
                subst h3
                exact hq1
            · split at h
              · cases hnn : nextNodeNotInShadowIncludingDescendantOf doc fuel c with
                | ok next? =>
                  simp only [hnn] at h
                  refine ih _ _ _ ?_ h
                  intro c' hc'
                  subst hc'
                  exact lexLt_trans _ _ _ hq1 (nnsid_keyLt doc fuel c c' hnn)
                | err e => simp only [hnn] at h; cases h
                | fuelOut => simp only [hnn] at h; cases h
              · have hqc2 : ∀ c', nextNodeInShadowIncludingTreeOrder doc c = some c' →
                    lexLt k (bpKey c' 0) = true := by
                  intro c' hc'
                  exact lexLt_trans _ _ _ hq1
                    (after_keyLt0 c c' (nextNodeSI_after doc c c' hc'))
                by_cases hv : isVisibleTextNode doc c = true
                · rw [if_pos hv] at h
                  obtain ⟨⟨added, ha1, ha2⟩, hcf⟩ := ih _ _ _ hqc2 h
                  refine ⟨⟨c :: added, ?_, ?_⟩, hcf⟩
                  · rw [ha1, List.append_assoc, List.singleton_append]
                  · intro n hn
                    rcases List.mem_cons.mp hn with rfl | hn2
                    · exact hq1
                    · exact ha2 n hn2
                · rw [if_neg hv] at h
                  exact ih _ _ _ hqc2 h

theorem findARange_nil (doc : DNode) (fl : Nat) (q : List Char) (sr : JsRange)
    (r : JsRange) (h : findARangeFromANodeList doc fl q sr [] = Res.ok (some r)) :
    False := by
  simp only [findARangeFromANodeList] at h
  cases hml : findMatchLoop doc q ((([] : List Path).map fun p => dataOfAt doc p).flatten)
      [] fl (if ([] : List Path).head? = some sr.startC then sr.startO else 0) with
  | ok v =>
    cases v with
    | none => simp only [hml] at h; cases h
    | some x =>
      obtain ⟨m, st, en⟩ := x
      have hg := (findMatchLoop_ok_some doc q _ [] fl _ m st en hml).1
      rw [getBoundaryPointAtIndex] at hg
      simp only [getBoundaryPointAtIndex.go] at hg
      cases hg
  | err e => simp only [hml] at h; cases h
  | fuelOut => simp only [hml] at h; cases h

theorem fix_no_match (doc : DNode) (q : List Char) :
    ∀ fuel sr out,
      sr.startO = 0 →
      partOfNonSearchableSubtree doc sr.startC = false →
      isVisibleTextNode doc sr.startC = true →
      isShadowIncludingDescendant sr.startC (nearestBlockAncestorOf doc sr.startC) = false →
      findStringInRange doc q fuel sr = Res.ok out → out.1 = none := by
  intro fuel
  induction fuel with
  | zero => intro sr out _ _ _ _ h; cases h
  | succ fuel ih =>
    intro sr out h0 hns hvt hsid h
    simp only [findStringInRange] at h
    split at h
    · cases h; rfl
    · rw [if_neg (show ¬ (partOfNonSearchableSubtree doc sr.startC = true) by
        simp [hns])] at h
      cases fuel with
      | zero => cases h
      | succ f2 =>
        have hcol : collectTextNodes doc sr (nearestBlockAncestorOf doc sr.startC) (f2 + 1)
            (some sr.startC) [] = Res.ok ([], some sr.startC) := by
          simp only [collectTextNodes, hsid]
          rw [if_pos (show ¬ (false = true) by simp)]
        rw [hcol] at h
        cases hfar : findARangeFromANodeList doc (f2 + 1) q sr [] with
        | err e => simp only [hfar] at h; cases h
        | fuelOut => simp only [hfar] at h; cases h
        | ok rr? =>
          cases rr? with
          | some rr => exact (findARange_nil doc (f2 + 1) q sr rr hfar).elim
          | none =>
            simp only [hfar] at h
            cases hss : rangeSetStart doc sr sr.startC 0 with
            | error e => simp only [hss] at h; cases h
            | ok sr2 =>
              simp only [hss] at h
              obtain ⟨hf1, hf2, _⟩ := rangeSetStart_fields doc sr sr.startC 0 sr2 hss
              exact ih sr2 out hf2 (by rw [hf1]; exact hns) (by rw [hf1]; exact hvt)
                (by rw [hf1]; exact hsid) h

theorem findMatchLoop_ge (doc : DNode) (q buf : List Char) (nodes : List Path) :
    ∀ fuel s m st en,
      findMatchLoop doc q buf nodes fuel s = Res.ok (some (m, st, en)) →
      min s (lowerStr buf).length ≤ m := by
  intro fuel
  induction fuel with
  | zero => intro s m st en h; cases h
  | succ fuel ih =>
    intro s m st en h
    rw [findMatchLoop] at h
    cases hio : indexOfFrom (lowerStr buf) (lowerStr q) s with
    | none => simp only [hio] at h; cases h
    | some m1 =>
      simp only [hio] at h
      have hge := indexOfFrom_ge _ _ _ _ hio
      cases hg1 : getBoundaryPointAtIndex doc m1 nodes false with
      | none => simp only [hg1] at h; cases h
      | some st1 =>
        simp only [hg1] at h
        cases hg2 : getBoundaryPointAtIndex doc (m1 + q.length) nodes true with
        | none => simp only [hg2] at h; cases h
        | some en1 =>
          simp only [hg2] at h
          cases hl1 : languageOf doc st1.1 with
          | error e => simp only [hl1] at h; cases h
          | ok loc1 =>
            simp only [hl1] at h
            cases hl2 : languageOf doc en1.1 with
            | error e => simp only [hl2] at h; cases h
            | ok loc2 =>
              simp only [hl2] at h
              by_cases hwb : isWordBounded buf m1 q.length loc1 loc2 = true
              · rw [if_neg (not_not_intro hwb)] at h
                cases h
                exact hge
              · rw [if_pos hwb] at h
                have h2 := ih (m1 + 1) m st en h
                omega
theorem collect_first_step (doc : DNode) (sr : JsRange) (f2 : Nat)
    (d0 : List Char) (hres0 : resolve doc sr.startC = some (DNode.text d0))
    (hvt : isVisibleTextNode doc sr.startC = true)
    (nodes : List Path) (cf : Option Path)
    (hcol : collectTextNodes doc sr (nearestBlockAncestorOf doc sr.startC) (f2 + 1)
      (some sr.startC) [] = Res.ok (nodes, cf)) :
    (nodes = [] ∧ cf = some sr.startC ∧
      (isShadowIncludingDescendant sr.startC (nearestBlockAncestorOf doc sr.startC) = false ∨
        bpBefore sr.endC sr.endO sr.startC 0 = true)) ∨
    ((∃ added, nodes = sr.startC :: added ∧
        ∀ n ∈ added, lexLt (bpKey sr.startC sr.startO) (bpKey n 0) = true) ∧
      (∀ c, cf = some c → lexLt (bpKey sr.startC sr.startO) (bpKey c 0) = true)) := by
  simp only [collectTextNodes] at hcol
  by_cases hsid : isShadowIncludingDescendant sr.startC
      (nearestBlockAncestorOf doc sr.startC) = true
  · rw [if_neg (not_not_intro hsid)] at hcol
    cases hcmp : rangeComparePoint doc sr sr.startC 0 with
    | error e => simp only [hcmp] at hcol; cases hcol
    | ok cmp =>
      simp only [hcmp] at hcol
      by_cases hc1 : cmp = 1
      · rw [if_pos hc1] at hcol
        cases hcol
        rw [hc1] at hcmp
        exact Or.inl ⟨rfl, rfl, Or.inr (rangeComparePoint_one doc sr sr.startC 0 hcmp)⟩
      · rw [if_neg hc1] at hcol
        rw [show hasBlockLevelDisplayAt doc sr.startC = false from
          hasBlockLevelDisplayAt_text doc sr.startC d0 hres0] at hcol
        rw [if_neg (show ¬ (false = true) by simp)] at hcol
        rw [show isSearchInvisibleAt doc sr.startC = false from
          isSearchInvisibleAt_text doc sr.startC d0 hres0] at hcol
        rw [if_neg (show ¬ (false = true) by simp)] at hcol
        rw [if_pos hvt] at hcol
        have hqc : ∀ c', nextNodeInShadowIncludingTreeOrder doc sr.startC = some c' →
            lexLt (bpKey sr.startC sr.startO) (bpKey c' 0) = true := by
          intro c' hc'
          exact bpKey_lt_divGt _ _ (nextNodeSI_text_divGt doc sr.startC c' d0 hres0 hc') _ _
        obtain ⟨⟨added, ha1, ha2⟩, hcf⟩ :=
          collect_chain doc sr (nearestBlockAncestorOf doc sr.startC)
            (bpKey sr.startC sr.startO) f2 _ _ _ hqc hcol
        exact Or.inr ⟨⟨added, ha1, ha2⟩, hcf⟩
  · rw [if_pos hsid] at hcol
    cases hcol
    exact Or.inl ⟨rfl, rfl, Or.inl (by simpa using hsid)⟩

theorem findARange_start_ge (doc : DNode) (fl : Nat) (q : List Char) (sr : JsRange)
    (added : List Path) (d0 : List Char)
    (hres0 : resolve doc sr.startC = some (DNode.text d0))
    (hlen : sr.startO ≤ nodeLengthAt doc sr.startC)
    (hadded : ∀ n ∈ added, lexLt (bpKey sr.startC sr.startO) (bpKey n 0) = true)
    (hvisAll : ∀ p ∈ sr.startC :: added, isVisibleTextNode doc p = true)
    (rr : JsRange)
    (h : findARangeFromANodeList doc fl q sr (sr.startC :: added) = Res.ok (some rr)) :
    keyLe (bpKey sr.startC sr.startO) (bpKey rr.startC rr.startO) ∧
    ∃ d, resolve doc rr.startC = some (DNode.text d) := by
  have hpoint : ∀ (idx : Nat) (bp : Path × Nat) (ie : Bool),
      sr.startO ≤ idx →
      getBoundaryPointAtIndex doc idx (sr.startC :: added) ie = some bp →
      keyLe (bpKey sr.startC sr.startO) (bpKey bp.1 bp.2) ∧
      ∃ d, resolve doc bp.1 = some (DNode.text d) := by
    intro idx bp ie hidx hg
    rw [getBoundaryPointAtIndex] at hg
    obtain ⟨pre, post, hsplit, hsum, hoff⟩ :=
      gbpi_go_decomp doc idx ie (sr.startC :: added) 0 bp (Nat.zero_le _) hg
    have hmem : bp.1 ∈ sr.startC :: added := by
      rw [hsplit]
      exact List.mem_append.mpr (Or.inr (List.mem_cons_self _ _))
    obtain ⟨db, hdb⟩ := visText_resolve doc bp.1 (hvisAll bp.1 hmem)
    refine ⟨?_, ⟨db, hdb⟩⟩
    cases pre with
    | nil =>
      have hsplit2 : sr.startC :: added = bp.1 :: post := by simpa using hsplit
      injection hsplit2 with he1 he2
      have hoff2 : bp.2 = idx := by
        rw [hoff]
        simp [sumNodeLengths]
      rw [← he1, hoff2]
      exact keyLe_offset sr.startC sr.startO idx hidx
    | cons x pre2 =>
      rw [List.cons_append] at hsplit
      injection hsplit with he1 he2
      have hx : bp.1 ∈ added := by
        rw [he2]
        exact List.mem_append.mpr (Or.inr (List.mem_cons_self _ _))
      exact Or.inl (lexLt_of_lt_of_keyLe _ _ _ (hadded bp.1 hx)
        (keyLe_offset bp.1 0 bp.2 (Nat.zero_le _)))
  simp only [findARangeFromANodeList, List.head?_cons] at h
  rw [if_pos trivial] at h
  cases hml : findMatchLoop doc q
      (((sr.startC :: added).map fun p => dataOfAt doc p).flatten)
      (sr.startC :: added) fl sr.startO with
  | err e => simp only [hml] at h; cases h
  | fuelOut => simp only [hml] at h; cases h
  | ok v =>
    cases v with
    | none => simp only [hml] at h; cases h
    | some x =>
      obtain ⟨m, st, en⟩ := x
      simp only [hml] at h
      have hge := findMatchLoop_ge doc q _ _ fl sr.startO m st en hml
      have hbp := findMatchLoop_ok_some doc q _ _ fl sr.startO m st en hml
      have hbuflen : sr.startO ≤
          (((sr.startC :: added).map fun p => dataOfAt doc p).flatten).length := by
        have h1 : dataOfAt doc sr.startC = d0 := dataOfAt_text doc sr.startC d0 hres0
        have h2 : nodeLengthAt doc sr.startC = d0.length :=
          nodeLengthAt_text doc sr.startC d0 hres0
        simp only [List.map_cons, List.flatten_cons, List.length_append, h1]
        omega
      have hm : sr.startO ≤ m := by
        rw [length_lowerStr] at hge
        omega
      by_cases hins : ((m : Int) + (q.length : Int) >
          (((List.map (fun p => dataOfAt doc p) (sr.startC :: added)).flatten.length : Int) -
            (if (sr.startC :: added).getLast? = some sr.endC then
              ((nodeLengthAt doc sr.endC : Int) - (sr.endO : Int)) else (0 : Int))))
      · rw [if_pos hins] at h
        cases h
      · rw [if_neg hins] at h
        cases hss : rangeSetStart doc createRange st.1 st.2 with
        | error e => simp only [hss] at h; cases h
        | ok r1 =>
          simp only [hss] at h
          cases hse : rangeSetEnd doc r1 en.1 en.2 with
          | error e => simp only [hse] at h; cases h
          | ok r2 =>
            simp only [hse] at h
            injection h with h2
            have h5 : r2 = rr := Option.some.inj h2
            subst h5
            obtain ⟨hs1, hs2, _⟩ := rangeSetStart_fields doc createRange st.1 st.2 r1 hss
            obtain ⟨_, _, hstart⟩ := rangeSetEnd_fields doc r1 en.1 en.2 r2 hse
            rcases hstart with ⟨he1, he2⟩ | ⟨he1, he2⟩
            · obtain ⟨hkl, htx⟩ := hpoint m st false hm hbp.1
              rw [he1, hs1, he2, hs2]
              exact ⟨hkl, htx⟩
            · obtain ⟨hkl, htx⟩ := hpoint (m + q.length) en true (by omega) hbp.2
              rw [he1, he2]
              exact ⟨hkl, htx⟩

theorem findStringInRange_ge (doc : DNode) (q : List Char) :
    ∀ fuel sr pm srf,
      (sr.startO = 0 ∨ ∃ d, resolve doc sr.startC = some (DNode.text d)) →
      sr.startO ≤ nodeLengthAt doc sr.startC →
      findStringInRange doc q fuel sr = Res.ok (some pm, srf) →
      keyLe (bpKey sr.startC sr.startO) (bpKey pm.startC pm.startO) ∧
      ∃ d, resolve doc pm.startC = some (DNode.text d) := by
  intro fuel
  induction fuel with
  | zero => intro sr pm srf _ _ h; cases h
  | succ fuel ih =>
    intro sr pm srf hinv hlen h
    simp only [findStringInRange] at h
    by_cases hcoll : rangeCollapsed sr = true
    · rw [if_pos hcoll] at h
      cases h
    · rw [if_neg hcoll] at h
      by_cases hns : partOfNonSearchableSubtree doc sr.startC = true
      · rw [if_pos hns] at h
        cases hnn : nextNodeNotInShadowIncludingDescendantOf doc fuel sr.startC with
        | err e => simp only [hnn] at h; cases h
        | fuelOut => simp only [hnn] at h; cases h
        | ok next? =>
          simp only [hnn] at h
          cases next? with
          | none => simp only [rangeSetStartOpt] at h; cases h
          | some nq =>
            simp only [rangeSetStartOpt] at h
            cases hset : rangeSetStart doc sr nq 0 with
            | error e => simp only [hset] at h; cases h
            | ok sr2 =>
              simp only [hset] at h
              obtain ⟨hf1, hf2, _⟩ := rangeSetStart_fields doc sr nq 0 sr2 hset
              have hstep : lexLt (bpKey sr.startC sr.startO) (bpKey nq 0) = true :=
                nnsid_from doc fuel sr.startC sr.startO hinv nq hnn
              obtain ⟨hle, htext⟩ := ih sr2 pm srf (Or.inl hf2)
                (by rw [hf2]; exact Nat.zero_le _) h
              rw [hf1, hf2] at hle
              exact ⟨Or.inl (lexLt_of_lt_of_keyLe _ _ _ hstep hle), htext⟩
      · rw [if_neg hns] at h
        by_cases hvt : isVisibleTextNode doc sr.startC = true
        case neg =>
          rw [if_pos hvt] at h
          cases hsn : nextNodeInShadowIncludingTreeOrder doc sr.startC with
          | none =>
            rw [hsn] at h
            cases fuel with
            | zero => cases h
            | succ f2 =>
              simp only [skipDoctypes] at h
              simp only [rangeSetStartOpt] at h
              cases h
          | some c1 =>
            rw [hsn] at h
            cases hsd : skipDoctypes doc fuel (some c1) with
            | err e => simp only [hsd] at h; cases h
            | fuelOut => simp only [hsd] at h; cases h
            | ok nq? =>
              simp only [hsd] at h
              cases nq? with
              | none => simp only [rangeSetStartOpt] at h; cases h
              | some nq =>
                simp only [rangeSetStartOpt] at h
                cases hset : rangeSetStart doc sr nq 0 with
                | error e => simp only [hset] at h; cases h
                | ok sr2 =>
                  simp only [hset] at h
                  obtain ⟨hf1, hf2, _⟩ := rangeSetStart_fields doc sr nq 0 sr2 hset
                  have hstep1 : lexLt (bpKey sr.startC sr.startO) (bpKey c1 0) = true := by
                    rcases hinv with h0 | ⟨d, hres⟩
                    · rw [h0]
                      exact after_keyLt0 _ _ (nextNodeSI_after doc sr.startC c1 hsn)
                    · exact bpKey_lt_divGt _ _
                        (nextNodeSI_text_divGt doc sr.startC c1 d hres hsn) _ _
                  have hstep : lexLt (bpKey sr.startC sr.startO) (bpKey nq 0) = true :=
                    skipDoctypes_keyLtK doc (bpKey sr.startC sr.startO) fuel c1 nq hstep1 hsd
                  obtain ⟨hle, htext⟩ := ih sr2 pm srf (Or.inl hf2)
                    (by rw [hf2]; exact Nat.zero_le _) h
                  rw [hf1, hf2] at hle
                  exact ⟨Or.inl (lexLt_of_lt_of_keyLe _ _ _ hstep hle), htext⟩
        case pos =>
          rw [if_neg (not_not_intro hvt)] at h
          obtain ⟨d0, hres0⟩ := visText_resolve doc sr.startC hvt
          have hns2 : partOfNonSearchableSubtree doc sr.startC = false := by
            simpa using hns
          cases fuel with
          | zero => cases h
          | succ f2 =>
            cases hcolr : collectTextNodes doc sr (nearestBlockAncestorOf doc sr.startC)
                (f2 + 1) (some sr.startC) [] with
            | err e => simp only [hcolr] at h; cases h
            | fuelOut => simp only [hcolr] at h; cases h
            | ok pair =>
              obtain ⟨nodes, cf⟩ := pair
              simp only [hcolr] at h
              have hvisAll : ∀ p ∈ nodes, isVisibleTextNode doc p = true :=
                collectTextNodes_visible doc sr _ (f2 + 1) _ [] (nodes, cf)
                  (by intro p hp; cases hp) hcolr
              rcases collect_first_step doc sr f2 d0 hres0 hvt nodes cf hcolr with
                ⟨hnil, hcfeq, hstop⟩ | ⟨⟨added, ha1, ha2⟩, hcf⟩
              · subst hnil
                subst hcfeq
                cases hfar : findARangeFromANodeList doc (f2 + 1) q sr [] with
                | err e => simp only [hfar] at h; cases h
                | fuelOut => simp only [hfar] at h; cases h
                | ok rr? =>
                  cases rr? with
                  | some rr => exact (findARange_nil doc (f2 + 1) q sr rr hfar).elim
                  | none =>
                    simp only [hfar] at h
                    cases hss : rangeSetStart doc sr sr.startC 0 with
                    | error e => simp only [hss] at h; cases h
                    | ok sr2 =>
                      simp only [hss] at h
                      rcases hstop with hsid2 | hbe
                      · obtain ⟨hf1, hf2, _⟩ :=
                          rangeSetStart_fields doc sr sr.startC 0 sr2 hss
                        have hnone := fix_no_match doc q (f2 + 1) sr2 (some pm, srf) hf2
                          (by rw [hf1]; exact hns2) (by rw [hf1]; exact hvt)
                          (by rw [hf1]; exact hsid2) h
                        cases hnone
                      · have hcol2 := rangeSetStart_collapse doc sr sr.startC 0 sr2 hss hbe
                        rw [show sr2 = (⟨sr.startC, 0, sr.startC, 0⟩ : JsRange) from hcol2] at h
                        simp only [findStringInRange] at h
                        rw [if_pos (show rangeCollapsed
                          (⟨sr.startC, 0, sr.startC, 0⟩ : JsRange) = true by
                            simp [rangeCollapsed])] at h
                        cases h
              · subst ha1
                cases hfar : findARangeFromANodeList doc (f2 + 1) q sr
                    (sr.startC :: added) with
                | err e => simp only [hfar] at h; cases h
                | fuelOut => simp only [hfar] at h; cases h
                | ok rr? =>
                  cases rr? with
                  | some rr =>
                    simp only [hfar] at h
                    injection h with h2
                    injection h2 with h3 h4
                    have h5 : rr = pm := Option.some.inj h3
                    subst h5
                    exact findARange_start_ge doc (f2 + 1) q sr added d0 hres0 hlen ha2
                      hvisAll rr hfar
                  | none =>
                    simp only [hfar] at h
                    cases cf with
                    | none => cases h
                    | some c2 =>
                      cases hss : rangeSetStart doc sr c2 0 with
                      | error e => simp only [hss] at h; cases h
                      | ok sr2 =>
                        simp only [hss] at h
                        obtain ⟨hf1, hf2, _⟩ := rangeSetStart_fields doc sr c2 0 sr2 hss
                        have hstep := hcf c2 rfl
                        obtain ⟨hle, htext⟩ := ih sr2 pm srf (Or.inl hf2)
                          (by rw [hf2]; exact Nat.zero_le _) h
                        rw [hf1, hf2] at hle
                        exact ⟨Or.inl (lexLt_of_lt_of_keyLe _ _ _ hstep hle), htext⟩
/-- C6: the outer-loop progress claim, amended.  Once the search range
is collapsed the loop returns null at once.  And under the invariant
that the loop's own re-anchoring maintains — the search range starts at
offset zero or inside a text node, within that node's length — every
iteration of the loop body that continues instead of returning found
its prefix (or, with no prefix, its textStart) somewhere in the current
search range, and re-anchors the search range's start exactly at the
first boundary point after that match's start: a move that is strictly
forward in boundary-point order, and one that re-establishes the
invariant for the next iteration.  The loop can also end by raising an
exception, which the claim omits, and because the model bounds every
loop by fuel, unconditional termination is not asserted here. -/
theorem claim_C6_amended (doc : DNode) (pv : ParsedTextDirective) (fuel : Nat)
    (sr : JsRange)
    (hinv : sr.startO = 0 ∨ ∃ d, resolve doc sr.startC = some (DNode.text d))
    (hlen : sr.startO ≤ nodeLengthAt doc sr.startC) :
    (rangeCollapsed sr = true → findRangeLoop doc pv (fuel + 1) sr = Res.ok none) ∧
    (∀ sr', findRangeBody doc pv fuel sr = Res.ok (FRStep.cont sr') →
      ∃ pm sr1 bp2,
        ((∃ qs, pv.prefixV = some qs ∧
            findStringInRange doc qs fuel sr = Res.ok (some pm, sr1)) ∨
          (pv.prefixV = none ∧
            findStringInRange doc pv.textStart fuel sr = Res.ok (some pm, sr1))) ∧
        firstBoundaryPointAfter doc (getStart pm) = some bp2 ∧
        sr'.startC = bp2.1 ∧ sr'.startO = bp2.2 ∧
        bpBefore sr.startC sr.startO sr'.startC sr'.startO = true ∧
        (sr'.startO = 0 ∨ ∃ d, resolve doc sr'.startC = some (DNode.text d)) ∧
        sr'.startO ≤ nodeLengthAt doc sr'.startC) := by
  constructor
  · intro hcol
    rw [findRangeLoop]
    rw [if_pos hcol]
  · intro sr' h
    rw [findRangeBody] at h
    cases hpf : pv.prefixV with
    | some prefixStr =>
      simp only [hpf] at h
      cases hfs : findStringInRange doc prefixStr fuel sr with
      | err e => simp only [hfs] at h; cases h
      | fuelOut => simp only [hfs] at h; cases h
      | ok pr =>
        obtain ⟨pm?, sr1⟩ := pr
        simp only [hfs] at h
        cases pm? with
        | none => cases h
        | some pm =>
          obtain ⟨hkey, dtx, hdtx⟩ :=
            findStringInRange_ge doc prefixStr fuel sr pm sr1 hinv hlen hfs
          cases hfb : firstBoundaryPointAfter doc (getStart pm) with
          | none =>
            simp only [hfb, rangeSetStartBp] at h
            cases h
          | some bp2 =>
            simp only [hfb, rangeSetStartBp] at h
            have hstrict := fbpa_strict doc (getStart pm) bp2 hfb dtx hdtx
            have hlt : lexLt (bpKey sr.startC sr.startO) (bpKey bp2.1 bp2.2) = true :=
              lexLt_of_keyLe_of_lt _ _ _ hkey hstrict
            obtain ⟨hinv2, hlen2⟩ := fbpa_inv doc (getStart pm) bp2 hfb dtx hdtx
            cases hsb : rangeSetStart doc sr1 bp2.1 bp2.2 with
            | error e => simp only [hsb] at h; cases h
            | ok sr2 =>
              simp only [hsb] at h
              obtain ⟨hb1, hb2, _⟩ := rangeSetStart_fields doc sr1 bp2.1 bp2.2 sr2 hsb
              cases hm1 : rangeSetStart doc createRange pm.endC pm.endO with
              | error e => simp only [hm1] at h; cases h
              | ok m1 =>
                simp only [hm1] at h
                cases hm0 : rangeSetEnd doc m1 sr2.endC sr2.endO with
                | error e => simp only [hm0] at h; cases h
                | ok mr0 =>
                  simp only [hm0] at h
                  cases hadv : advanceRangeStartToNextNonWhitespacePosition doc fuel mr0 with
                  | err e => simp only [hadv] at h; cases h
                  | fuelOut => simp only [hadv] at h; cases h
                  | ok mr1 =>
                    simp only [hadv] at h
                    by_cases hcl : rangeCollapsed mr1 = true
                    · rw [if_pos hcl] at h; cases h
                    · rw [if_neg hcl] at h
                      cases hts : findStringInRange doc pv.textStart fuel mr1 with
                      | err e => simp only [hts] at h; cases h
                      | fuelOut => simp only [hts] at h; cases h
                      | ok tp =>
                        obtain ⟨t?, mr2⟩ := tp
                        simp only [hts] at h
                        cases t? with
                        | none => cases h
                        | some pm0 =>
                          dsimp only at h
                          by_cases hsp : samePoint (getStart pm0) (getStart mr2) = true
                          · rw [if_neg (not_not_intro hsp)] at h
                            cases hte : findRangeTextEndPart doc pv.textEnd fuel pm0 sr2 with
                            | err e => simp only [hte] at h; cases h
                            | fuelOut => simp only [hte] at h; cases h
                            | ok te? =>
                              simp only [hte] at h
                              cases te? with
                              | none => cases h
                              | some pm1 =>
                                have hss := findRangeSuffixPart_cont doc pv fuel pm1 sr2 sr' h
                                subst hss
                                refine ⟨pm, sr1, bp2, Or.inl ⟨prefixStr, rfl, hfs⟩,
                                  hfb, hb1, hb2, ?_, ?_, ?_⟩
                                · rw [bpBefore, hb1, hb2]
                                  exact hlt
                                · rw [hb1, hb2]
                                  exact hinv2
                                · rw [hb1, hb2]
                                  exact hlen2
                          · rw [if_pos hsp] at h
                            cases h
                            refine ⟨pm, sr1, bp2, Or.inl ⟨prefixStr, rfl, hfs⟩,
                              hfb, hb1, hb2, ?_, ?_, ?_⟩
                            · rw [bpBefore, hb1, hb2]
                              exact hlt
                            · rw [hb1, hb2]
                              exact hinv2
                            · rw [hb1, hb2]
                              exact hlen2
    | none =>
      simp only [hpf] at h
      cases hts : findStringInRange doc pv.textStart fuel sr with
      | err e => simp only [hts] at h; cases h
      | fuelOut => simp only [hts] at h; cases h
      | ok tp =>
        obtain ⟨t?, sr1⟩ := tp
        simp only [hts] at h
        cases t? with
        | none => cases h
        | some pm0 =>
          obtain ⟨hkey, dtx, hdtx⟩ :=
            findStringInRange_ge doc pv.textStart fuel sr pm0 sr1 hinv hlen hts
          cases hfb : firstBoundaryPointAfter doc (getStart pm0) with
          | none =>
            simp only [hfb, rangeSetStartBp] at h
            cases h
          | some bp2 =>
            simp only [hfb, rangeSetStartBp] at h
            have hstrict := fbpa_strict doc (getStart pm0) bp2 hfb dtx hdtx
            have hlt : lexLt (bpKey sr.startC sr.startO) (bpKey bp2.1 bp2.2) = true :=
              lexLt_of_keyLe_of_lt _ _ _ hkey hstrict
            obtain ⟨hinv2, hlen2⟩ := fbpa_inv doc (getStart pm0) bp2 hfb dtx hdtx
            cases hsb : rangeSetStart doc sr1 bp2.1 bp2.2 with
            | error e => simp only [hsb] at h; cases h
            | ok sr2 =>
              simp only [hsb] at h
              obtain ⟨hb1, hb2, _⟩ := rangeSetStart_fields doc sr1 bp2.1 bp2.2 sr2 hsb
              cases hte : findRangeTextEndPart doc pv.textEnd fuel pm0 sr2 with
              | err e => simp only [hte] at h; cases h
              | fuelOut => simp only [hte] at h; cases h
              | ok te? =>
                simp only [hte] at h
                cases te? with
                | none => cases h
                | some pm1 =>
                  have hss := findRangeSuffixPart_cont doc pv fuel pm1 sr2 sr' h
                  subst hss
                  refine ⟨pm0, sr1, bp2, Or.inr ⟨rfl, rfl⟩,
                    hfb, hb1, hb2, ?_, ?_, ?_⟩
                  · rw [bpBefore, hb1, hb2]
                    exact hlt
                  · rw [hb1, hb2]
                    exact hinv2
                  · rw [hb1, hb2]
                    exact hlen2

/-- Witness for C6: on the one-text sample document holding x-space-a-
space-y, the loop returns null at once from a collapsed search range;
and the iteration that finds the prefix x at the text's start but sees
textStart y elsewhere continues with the search range re-anchored at
the first boundary point after the prefix match's start — strictly
after the old start, at offset one of the text node. -/
theorem claim_C6_witness :
    findRangeLoop (docOneText "x a y") ⟨cs "y", none, some (cs "x"), none⟩ (5 + 1)
      ⟨[], 0, [], 0⟩ = Res.ok none ∧
    (∃ pm sr1 bp2,
      ((∃ qs, (⟨cs "y", none, some (cs "x"), none⟩ : ParsedTextDirective).prefixV =
            some qs ∧
          findStringInRange (docOneText "x a y") qs 50 ⟨[], 0, [], 1⟩ =
            Res.ok (some pm, sr1)) ∨
        ((⟨cs "y", none, some (cs "x"), none⟩ : ParsedTextDirective).prefixV = none ∧
          findStringInRange (docOneText "x a y")
            (⟨cs "y", none, some (cs "x"), none⟩ : ParsedTextDirective).textStart 50
            ⟨[], 0, [], 1⟩ = Res.ok (some pm, sr1))) ∧
      firstBoundaryPointAfter (docOneText "x a y") (getStart pm) = some bp2 ∧
      (⟨bodyTextPath, 1, [], 1⟩ : JsRange).startC = bp2.1 ∧
      (⟨bodyTextPath, 1, [], 1⟩ : JsRange).startO = bp2.2 ∧
      bpBefore ([] : Path) 0 (⟨bodyTextPath, 1, [], 1⟩ : JsRange).startC
        (⟨bodyTextPath, 1, [], 1⟩ : JsRange).startO = true ∧
      ((⟨bodyTextPath, 1, [], 1⟩ : JsRange).startO = 0 ∨
        ∃ d, resolve (docOneText "x a y") (⟨bodyTextPath, 1, [], 1⟩ : JsRange).startC =
          some (DNode.text d)) ∧
      (⟨bodyTextPath, 1, [], 1⟩ : JsRange).startO ≤
        nodeLengthAt (docOneText "x a y") (⟨bodyTextPath, 1, [], 1⟩ : JsRange).startC) :=
  ⟨(claim_C6_amended (docOneText "x a y") ⟨cs "y", none, some (cs "x"), none⟩ 5
      ⟨[], 0, [], 0⟩ (Or.inl rfl) (Nat.zero_le _)).1 (by decide),
   (claim_C6_amended (docOneText "x a y") ⟨cs "y", none, some (cs "x"), none⟩ 50
      ⟨[], 0, [], 1⟩ (Or.inl rfl) (Nat.zero_le _)).2 ⟨bodyTextPath, 1, [], 1⟩ (by rfl)⟩
end TextFragments

